import Mathlib

/-!
# Path formatter of `surl` (`src/path_formatter.go`)

A shallow embedding of `PathFormatter` and of the Go library routines it
calls (`strings.Cut`, `strconv.FormatInt`, `strconv.ParseInt`,
`base64.RawURLEncoding`, `time.Unix`, `Time.Unix`), followed by theorems about
the four operations `AddExpiry`, `AddSignature`, `ExtractSignature` and
`ExtractExpiry`.

Go strings are byte sequences, so strings are lists of bytes here; a pointer
to a mutated `url.URL` becomes explicit state passing: every operation returns
the state of the URL it was handed together with what it returned.
-/

namespace Surl

/-! ## Data model -/

/-- One byte of a Go string or of a `[]byte`. -/
abbrev Byte := Fin 256

/-- A Go `string` (equally a `[]byte`): a sequence of bytes. -/
abbrev Str := List Byte

/-- The bytes (UTF-8) of a string literal. -/
def str (s : String) : Str := (s.toList.flatMap String.utf8EncodeChar).map (fun b => b.val)

/-- The byte `'.'`. -/
def dot : Byte := 46

/-- The byte `'/'`. -/
def slash : Byte := 47

/-- The fields of `url.URL` that the formatter reads or writes. -/
structure URL where
  Path : Str
  RawQuery : Str
deriving DecidableEq, Repr

/-- The one field of `Signer` read by the formatter. -/
structure Signer where
  skipQuery : Bool
deriving DecidableEq, Repr

/-- `type PathFormatter struct { signer *Signer }`. -/
structure PathFormatter where
  signer : Signer
deriving DecidableEq, Repr

/-- A `time.Time`, by its two observables: `ext` is `t.sec()`, the seconds
since January 1 of year 1 (an `int64`), and `nsec` is `t.nsec()`. -/
structure Time where
  ext : Int
  nsec : Nat
deriving DecidableEq, Repr

/-- The cause held by a `*strconv.NumError`. -/
inductive NumCause where
  | ErrSyntax
  | ErrRange
deriving DecidableEq, Repr

/-- `strconv.NumError{Func, Num, Err}`. -/
structure NumError where
  Func : Str
  Num : Str
  Err : NumCause
deriving DecidableEq, Repr

/-- The package's sentinel errors used by the formatter. -/
inductive Sentinel where
  | ErrInvalidSignedURL
  | ErrInvalidSignature
deriving DecidableEq, Repr

/-- The error values the formatter returns: a bare sentinel, a sentinel
wrapped by `fmt.Errorf("%w" ++ suffix)`, or the `*strconv.NumError` of
`strconv.ParseInt` handed on as it is. -/
inductive Error where
  | sentinel (s : Sentinel)
  | wrapped (s : Sentinel) (suffix : Str)
  | num (e : NumError)
deriving DecidableEq, Repr

/-- `errors.Is(err, target)` for a sentinel target. -/
def Error.Is : Error → Sentinel → Bool
  | .sentinel s, t => decide (s = t)
  | .wrapped s _, t => decide (s = t)
  | .num _, _ => false

/-- `err.Error()`, the message text. `text` is the message of each sentinel
(their declarations are outside `path_formatter.go`) and `quote` is
`strconv.Quote`, which `NumError.Error` applies to the text it reports. -/
def Error.message (text : Sentinel → Str) (quote : Str → Str) : Error → Str
  | .sentinel s => text s
  | .wrapped s suffix => text s ++ suffix
  | .num e => str "strconv." ++ e.Func ++ str ": parsing " ++ quote e.Num ++ str ": " ++
      (match e.Err with
       | .ErrSyntax => str "invalid syntax"
       | .ErrRange => str "value out of range")

/-- How a call ends: it returns its value with a nil error, it returns an
error, or it stops with a run-time panic. -/
inductive Outcome (α : Type) where
  | ok (v : α)
  | err (e : Error)
  | panic
deriving DecidableEq, Repr

/-- A finished call: the state of the URL the caller passed in, and the
outcome. -/
structure Run (α : Type) where
  url : URL
  out : Outcome α
deriving DecidableEq, Repr

/-! ## `strings` -/

/-- `strings.IndexByte(s, c)`: the first position of `c` in `s`. -/
def IndexByte : Str → Byte → Option Nat
  | [], _ => none
  | x :: xs, c => if x = c then some 0 else (IndexByte xs c).map (· + 1)

/-- `strings.Cut(s, sep)` for a one-byte separator: `before, after, found`. -/
def Cut (s : Str) (sep : Byte) : Str × Str × Bool :=
  match IndexByte s sep with
  | some i => (s.take i, s.drop (i + 1), true)
  | none => (s, [], false)

/-! ## `time` -/

/-- Least `int64`. -/
def minInt64 : Int := -9223372036854775808

/-- Greatest `int64`. -/
def maxInt64 : Int := 9223372036854775807

/-- Reduction of an integer to `int64` (two's complement wrap-around). -/
def wrapInt64 (x : Int) : Int := (x + 9223372036854775808) % 18446744073709551616 - 9223372036854775808

/-- `unixToInternal`: seconds from January 1 of year 1 to January 1, 1970. -/
def unixToInternal : Int := 62135596800

/-- The values a `time.Time` can hold. -/
def Time.valid (t : Time) : Prop :=
  minInt64 ≤ t.ext ∧ t.ext ≤ maxInt64 ∧ t.nsec < 1000000000

instance (t : Time) : Decidable t.valid := by
  unfold Time.valid; exact inferInstance

/-- `t.Unix()`: `t.sec() + internalToUnix`. -/
def Time.Unix (t : Time) : Int := wrapInt64 (t.ext - unixToInternal)

/-- `time.Unix(sec, 0)`: `unixTime(sec, 0)`. -/
def timeUnix (sec : Int) : Time := { ext := wrapInt64 (sec + unixToInternal), nsec := 0 }

/-- The instant `t` cut down to a whole second. -/
def Time.truncSecond (t : Time) : Time := { ext := t.ext, nsec := 0 }

/-! ## `strconv` -/

/-- The ASCII digit of `d % 10`. -/
def digitByte (d : Nat) : Byte := ⟨48 + d % 10, by omega⟩

/-- The digit loop of `strconv.formatBits` in base 10: the decimal digits of
`u` written in front of `acc`, least significant digit first. -/
def formatBits : Nat → Nat → Str → Str
  | 0, _, acc => acc
  | fuel + 1, u, acc =>
    if u < 10 then digitByte u :: acc
    else formatBits fuel (u / 10) (digitByte (u % 10) :: acc)

/-- `strconv.FormatUint(u, 10)`; a `uint64` has at most 20 decimal digits. -/
def FormatUint (u : Nat) : Str := formatBits 20 u []

/-- `strconv.FormatInt(i, 10)` for an `int64` value `i`: a `'-'` and the
digits of the magnitude when `i` is negative. -/
def FormatInt (i : Int) : Str :=
  if i < 0 then (45 : Byte) :: FormatUint (-i).toNat else FormatUint i.toNat

/-- `strconv`'s `lower(c)`: `c | ('x' - 'X')`. -/
def lower (c : Byte) : Nat := c.val ||| 32

/-- `syntaxError(fn, str)`. -/
def syntaxError (fn s : Str) : NumError := { Func := fn, Num := s, Err := .ErrSyntax }

/-- `rangeError(fn, str)`. -/
def rangeError (fn s : Str) : NumError := { Func := fn, Num := s, Err := .ErrRange }

/-- `maxUint64`. -/
def maxUint64 : Nat := 18446744073709551615

/-- The function name `strconv.ParseUint` puts in its errors. -/
def fnParseUint : Str := str "ParseUint"

/-- The function name `strconv.ParseInt` puts in its errors. -/
def fnParseInt : Str := str "ParseInt"

/-- The digit value `strconv.ParseUint` gives a byte, none for a byte that is
neither a digit nor a letter. -/
def digitVal (c : Byte) : Option Nat :=
  if 48 ≤ c.val ∧ c.val ≤ 57 then some (c.val - 48)
  else if 97 ≤ lower c ∧ lower c ≤ 122 then some (lower c - 97 + 10)
  else none

/-- The loop of `strconv.ParseUint(s0, 10, 64)` over the bytes still to read,
`n` being the value so far; the result is the value and the error returned. -/
def parseUintLoop (s0 : Str) : Str → Nat → Nat × Option NumError
  | [], n => (n, none)
  | c :: cs, n =>
    match digitVal c with
    | none => (0, some (syntaxError fnParseUint s0))
    | some d =>
      if d ≥ 10 then (0, some (syntaxError fnParseUint s0))
      else if n ≥ maxUint64 / 10 + 1 then (maxUint64, some (rangeError fnParseUint s0))
      else
        let n10 := n * 10
        let n1 := (n10 + d) % 18446744073709551616
        if n1 < n10 ∨ n1 > maxUint64 then (maxUint64, some (rangeError fnParseUint s0))
        else parseUintLoop s0 cs n1

/-- `strconv.ParseUint(s, 10, 64)`. -/
def ParseUint (s : Str) : Nat × Option NumError :=
  match s with
  | [] => (0, some (syntaxError fnParseUint s))
  | _ :: _ => parseUintLoop s s 0

/-- `strconv.ParseInt(s, 10, 64)`: the value and the error returned. -/
def ParseInt (s : Str) : Int × Option NumError :=
  match s with
  | [] => (0, some (syntaxError fnParseInt s))
  | c :: rest =>
    let neg : Bool := if c = 43 then false else if c = 45 then true else false
    let s1 : Str := if c = 43 then rest else if c = 45 then rest else s
    let r := ParseUint s1
    let keep : Bool :=
      match r.2 with
      | some e => decide (e.Err = .ErrRange)
      | none => true
    if !keep then (0, some (syntaxError fnParseInt s))
    else
      let un := r.1
      let cutoff : Nat := 9223372036854775808
      if !neg && decide (un ≥ cutoff) then (((cutoff - 1 : Nat) : Int), some (rangeError fnParseInt s))
      else if neg && decide (un > cutoff) then (-(cutoff : Int), some (rangeError fnParseInt s))
      else
        let n := wrapInt64 (un : Int)
        (if neg then wrapInt64 (-n) else n, none)

/-! ## `encoding/base64` -/

/-- The table `encodeURL` of the URL-safe alphabet. -/
def encodeURL : Str := str "ABCDEFGHIJKLMNOPQRSTUVWXYZabcdefghijklmnopqrstuvwxyz0123456789-_"

/-- The entry `enc.encode[v]`. -/
def encodeChar (v : Nat) : Byte := encodeURL.getD v 0

/-- The entry `enc.decodeMap[c]`: the position of `c` in the alphabet, none
where Go holds `0xff`. -/
def decodeMap (c : Byte) : Option Nat :=
  let i := encodeURL.indexOf c
  if i < 64 then some i else none

/-- `base64.RawURLEncoding.EncodeToString`: each group of three bytes gives
four characters of six bits each; a last group of one or two bytes gives two
or three characters, with no padding. The shifts and masks of the Go code are
written as multiplications, divisions and remainders. -/
def EncodeToString : List Byte → Str
  | a :: b :: c :: rest =>
    let val := a.val * 65536 + b.val * 256 + c.val
    encodeChar (val / 262144 % 64) :: encodeChar (val / 4096 % 64) ::
      encodeChar (val / 64 % 64) :: encodeChar (val % 64) :: EncodeToString rest
  | [a, b] =>
    let val := a.val * 65536 + b.val * 256
    [encodeChar (val / 262144 % 64), encodeChar (val / 4096 % 64), encodeChar (val / 64 % 64)]
  | [a] =>
    let val := a.val * 65536
    [encodeChar (val / 262144 % 64), encodeChar (val / 4096 % 64)]
  | [] => []

/-- The byte `byte(val >> (8 * k))` of a 24-bit value. -/
def byteOf (val k : Nat) : Byte := ⟨val / 256 ^ k % 256, Nat.mod_lt _ (by decide)⟩

/-- The bytes a quantum of `dbuf` six-bit values decodes to (`dlen - 1` of
them), with no check of the unused low bits: the encoding is not strict. -/
def quantumBytes : List Nat → Option (List Byte)
  | [] => some []
  | [d0, d1] =>
    let val := d0 * 262144 + d1 * 4096
    some [byteOf val 2]
  | [d0, d1, d2] =>
    let val := d0 * 262144 + d1 * 4096 + d2 * 64
    some [byteOf val 2, byteOf val 1]
  | [d0, d1, d2, d3] =>
    let val := d0 * 262144 + d1 * 4096 + d2 * 64 + d3
    some [byteOf val 2, byteOf val 1, byteOf val 0]
  | _ => none

/-- The loop of `Encoding.Decode` and `decodeQuantum` without padding: `dbuf`
holds the six-bit values read for the current quantum. A byte of the alphabet
is added to the quantum, which is written out when it has four; `'\n'` and
`'\r'` are passed over; any other byte is a `CorruptInputError`; at the end of
the input a quantum of one value is a `CorruptInputError` as well. The offset
the error carries is left out: the caller never looks at it. -/
def decodeLoop : Str → List Nat → Option (List Byte)
  | [], dbuf => if dbuf.length = 1 then none else quantumBytes dbuf
  | c :: cs, dbuf =>
    match decodeMap c with
    | some v =>
      if dbuf.length = 3 then
        match quantumBytes (dbuf ++ [v]), decodeLoop cs [] with
        | some q, some r => some (q ++ r)
        | _, _ => none
      else decodeLoop cs (dbuf ++ [v])
    | none =>
      if c = 10 ∨ c = 13 then decodeLoop cs dbuf else none

/-- `base64.RawURLEncoding.DecodeString`, none when it returns an error. -/
def DecodeString (s : Str) : Option (List Byte) := decodeLoop s []

/-! ## `PathFormatter` -/

/-- `func (f *PathFormatter) AddExpiry(unsigned *url.URL, expiry time.Time)`. -/
def AddExpiry (_f : PathFormatter) (unsigned : URL) (expiry : Time) : URL :=
  let expBytes := FormatInt expiry.Unix
  { unsigned with Path := expBytes ++ unsigned.Path }

/-- `func (f *PathFormatter) AddSignature(payload *url.URL, sig []byte)`. -/
def AddSignature (_f : PathFormatter) (payload : URL) (sig : List Byte) : URL :=
  let encoded := EncodeToString sig
  { payload with Path := slash :: (encoded ++ dot :: payload.Path) }

/-- `func (f *PathFormatter) ExtractSignature(u *url.URL) (*url.URL, []byte, error)`.
The slice `encoded[1:]` of an empty `encoded` is a run-time panic. -/
def ExtractSignature (f : PathFormatter) (u : URL) : Run (List Byte) :=
  match Cut u.Path dot with
  | (_, _, false) => { url := u, out := .err (.sentinel .ErrInvalidSignedURL) }
  | (encoded, payload, true) =>
    match encoded with
    | [] => { url := u, out := .panic }
    | _ :: encoded =>
      match DecodeString encoded with
      | none =>
        { url := u,
          out := .err (.wrapped .ErrInvalidSignature (str ": invalid base64: " ++ encoded)) }
      | some sig =>
        let u := { u with Path := payload }
        let u := if f.signer.skipQuery then { u with RawQuery := [] } else u
        { url := u, out := .ok sig }

/-- `func (*PathFormatter) ExtractExpiry(u *url.URL) (*url.URL, time.Time, error)`. -/
def ExtractExpiry (_f : PathFormatter) (u : URL) : Run Time :=
  match Cut u.Path slash with
  | (_, _, false) => { url := u, out := .err (.sentinel .ErrInvalidSignedURL) }
  | (expiry, path, true) =>
    let u := { u with Path := slash :: path }
    match ParseInt expiry with
    | (_, some err) => { url := u, out := .err (.num err) }
    | (expInt, none) => { url := u, out := .ok (timeUnix expInt) }

/-! ## Decimal texts -/

/-- The byte is one of `'0'` to `'9'`. -/
def isDigit (c : Byte) : Bool := decide (48 ≤ c.val ∧ c.val ≤ 57)

/-- The number read so far, `n`, carried on over the decimal digits `cs`. -/
def decFold (n : Nat) (cs : Str) : Nat := cs.foldl (fun n c => n * 10 + (c.val - 48)) n

/-- The number a run of decimal digits denotes. -/
def decimalValue (ds : Str) : Nat := decFold 0 ds

/-- The `int64` a text denotes: an optional single `'+'` or `'-'`, then one or
more decimal digits, whose value lies between `minInt64` and `maxInt64`. None
for every other text. -/
def decimalInt64 (s : Str) : Option Int :=
  match s with
  | [] => none
  | c :: rest =>
    let ds : Str := if c = 43 ∨ c = 45 then rest else s
    if ds.isEmpty then none
    else if ds.all isDigit then
      let i : Int := if c = 45 then -(decimalValue ds : Int) else (decimalValue ds : Int)
      if minInt64 ≤ i ∧ i ≤ maxInt64 then some i else none
    else none

/-! ## Unpadded URL-safe base64 texts -/

/-- The byte is in the URL-safe alphabet: `A-Z`, `a-z`, `0-9`, `'-'`, `'_'`. -/
def inAlphabet (c : Byte) : Bool :=
  decide ((65 ≤ c.val ∧ c.val ≤ 90) ∨ (97 ≤ c.val ∧ c.val ≤ 122) ∨ (48 ≤ c.val ∧ c.val ≤ 57) ∨
    c.val = 45 ∨ c.val = 95)

/-- The byte is `'\n'` or `'\r'`. -/
def isNewline (c : Byte) : Bool := decide (c = 10 ∨ c = 13)

/-- The text without its `'\n'` and `'\r'` bytes. -/
def stripNewlines (e : Str) : Str := e.filter (fun c => !isNewline c)

/-- The text is unpadded URL-safe base64 in the strict reading: every byte is
in the alphabet and the length is not 1 modulo 4. -/
def strictRawURL (e : Str) : Bool := e.all inAlphabet && decide (e.length % 4 ≠ 1)

/-- The texts `base64.RawURLEncoding` decodes: unpadded URL-safe base64 once
the `'\n'` and `'\r'` bytes are taken out. -/
def looseRawURL (e : Str) : Bool := strictRawURL (stripNewlines e)

/-! ## The bytes of an unpadded URL-safe base64 text (RFC 4648) -/

/-- The six-bit value of a character of the URL-safe alphabet: `A-Z` are 0 to
25, `a-z` are 26 to 51, `0-9` are 52 to 61, `'-'` is 62 and `'_'` is 63. -/
def sextetOf (c : Byte) : Nat :=
  if 65 ≤ c.val ∧ c.val ≤ 90 then c.val - 65
  else if 97 ≤ c.val ∧ c.val ≤ 122 then c.val - 97 + 26
  else if 48 ≤ c.val ∧ c.val ≤ 57 then c.val - 48 + 52
  else if c.val = 45 then 62
  else 63

/-- The bytes a run of six-bit values stands for: the bits are joined, most
significant first, and cut into bytes; four values give three bytes, a last
group of three gives two, a last group of two gives one, and the bits left
over are dropped. -/
def sextetBytes : List Nat → List Byte
  | v0 :: v1 :: v2 :: v3 :: rest =>
    byteOf (v0 * 262144 + v1 * 4096 + v2 * 64 + v3) 2 ::
      byteOf (v0 * 262144 + v1 * 4096 + v2 * 64 + v3) 1 ::
      byteOf (v0 * 262144 + v1 * 4096 + v2 * 64 + v3) 0 :: sextetBytes rest
  | [v0, v1, v2] =>
    [byteOf (v0 * 262144 + v1 * 4096 + v2 * 64) 2, byteOf (v0 * 262144 + v1 * 4096 + v2 * 64) 1]
  | [v0, v1] => [byteOf (v0 * 262144 + v1 * 4096) 2]
  | [_] => []
  | [] => []

/-- The bytes an unpadded URL-safe base64 text decodes to. -/
def rawURLBytes (e : Str) : List Byte := sextetBytes (e.map sextetOf)

/-! ## Instants counted from the Unix epoch -/

/-- The instant `n` whole seconds after the Unix epoch (before it for a
negative `n`), with no sub-second part: the epoch is `unixToInternal` seconds
after January 1 of year 1, and the sum is taken in the integers, without
wrap-around. -/
def secondsAfterEpoch (n : Int) : Time := { ext := unixToInternal + n, nsec := 0 }

/-- The seconds from the Unix epoch to the second of `t`, counted in the
integers, without wrap-around. -/
def Time.epochSeconds (t : Time) : Int := t.ext - unixToInternal

/-! # Theorems -/

/-! ## Lemmas on `strings.Cut` -/

theorem IndexByte_of_not_mem (s : Str) (c : Byte) (h : c ∉ s) : IndexByte s c = none := by
  induction s with
  | nil => rfl
  | cons x xs ih =>
    have hx : x ≠ c := fun e => h (by simp [e])
    have hxs : c ∉ xs := fun e => h (by simp [e])
    simp [IndexByte, hx, ih hxs]

theorem IndexByte_append (a b : Str) (c : Byte) (h : c ∉ a) :
    IndexByte (a ++ c :: b) c = some a.length := by
  induction a with
  | nil => simp [IndexByte]
  | cons x xs ih =>
    have hx : x ≠ c := fun e => h (by simp [e])
    have hxs : c ∉ xs := fun e => h (by simp [e])
    simp [IndexByte, hx, ih hxs]

theorem Cut_of_not_mem (s : Str) (c : Byte) (h : c ∉ s) : Cut s c = (s, [], false) := by
  simp [Cut, IndexByte_of_not_mem s c h]

theorem Cut_append (a b : Str) (c : Byte) (h : c ∉ a) : Cut (a ++ c :: b) c = (a, b, true) := by
  simp [Cut, IndexByte_append a b c h]

theorem exists_first_split (s : Str) (c : Byte) (h : c ∈ s) :
    ∃ a b, c ∉ a ∧ s = a ++ c :: b := by
  induction s with
  | nil => simp at h
  | cons x xs ih =>
    by_cases hx : x = c
    · exact ⟨[], xs, by simp, by simp [hx]⟩
    · have hxs : c ∈ xs := by
        rcases List.mem_cons.mp h with e | e
        · exact absurd e.symm hx
        · exact e
      obtain ⟨a, b, ha, hs⟩ := ih hxs
      refine ⟨x :: a, b, ?_, by simp [hs]⟩
      intro hm
      rcases List.mem_cons.mp hm with e | e
      · exact hx e.symm
      · exact ha e

theorem Cut_found_iff (s : Str) (c : Byte) : (Cut s c).2.2 = true ↔ c ∈ s := by
  constructor
  · intro h
    by_contra hn
    rw [Cut_of_not_mem s c hn] at h
    simp at h
  · intro h
    obtain ⟨a, b, ha, hs⟩ := exists_first_split s c h
    rw [hs, Cut_append a b c ha]

/-! ## Lemmas on `time` -/

theorem timeUnix_Unix (t : Time) (h : t.valid) : timeUnix t.Unix = t.truncSecond := by
  obtain ⟨h1, h2, _⟩ := h
  simp only [timeUnix, Time.Unix, Time.truncSecond, wrapInt64, unixToInternal, minInt64, maxInt64] at *
  congr 1
  omega

theorem Unix_timeUnix (n : Int) (hmin : minInt64 ≤ n) (hmax : n ≤ maxInt64) :
    (timeUnix n).Unix = n := by
  simp only [timeUnix, Time.Unix, wrapInt64, unixToInternal, minInt64, maxInt64] at *
  omega

theorem Unix_eq_epochSeconds (t : Time) (hmin : minInt64 ≤ t.epochSeconds)
    (hmax : t.epochSeconds ≤ maxInt64) : t.Unix = t.epochSeconds := by
  simp only [Time.Unix, Time.epochSeconds, wrapInt64, unixToInternal, minInt64, maxInt64] at *
  omega

theorem timeUnix_eq_secondsAfterEpoch (n : Int) (hmin : minInt64 ≤ n)
    (hmax : n ≤ maxInt64 - unixToInternal) : timeUnix n = secondsAfterEpoch n := by
  simp only [timeUnix, secondsAfterEpoch, wrapInt64, unixToInternal, minInt64, maxInt64] at *
  congr 1
  omega

theorem timeUnix_wraps (n : Int) (hmin : maxInt64 - unixToInternal < n) (hmax : n ≤ maxInt64) :
    (timeUnix n).ext = unixToInternal + n - 18446744073709551616 ∧
    (timeUnix n).ext < (secondsAfterEpoch 0).ext := by
  simp only [timeUnix, secondsAfterEpoch, wrapInt64, unixToInternal, minInt64, maxInt64] at *
  omega

theorem Unix_range (t : Time) : minInt64 ≤ t.Unix ∧ t.Unix ≤ maxInt64 := by
  simp only [Time.Unix, wrapInt64, minInt64, maxInt64]
  omega

/-! ## Lemmas on `encoding/base64` -/

theorem decodeMap_encodeChar (v : Nat) (h : v < 64) : decodeMap (encodeChar v) = some v := by
  have key : ∀ w : Fin 64, decodeMap (encodeChar w.val) = some w.val := by decide
  exact key ⟨v, h⟩

theorem decodeMap_lt (c : Byte) (v : Nat) (h : decodeMap c = some v) : v < 64 := by
  unfold decodeMap at h
  simp only at h
  split at h
  · cases h; assumption
  · cases h

theorem encodeChar_ne_dot (v : Nat) (h : v < 64) : encodeChar v ≠ dot := by
  have key : ∀ w : Fin 64, encodeChar w.val ≠ dot := by decide
  exact key ⟨v, h⟩

theorem dot_not_mem_EncodeToString (s : List Byte) : dot ∉ EncodeToString s := by
  induction s using EncodeToString.induct with
  | case1 a b c rest ih =>
    simp only [EncodeToString, List.mem_cons, not_or]
    refine ⟨?_, ?_, ?_, ?_, ih⟩ <;>
      exact fun e => encodeChar_ne_dot _ (Nat.mod_lt _ (by decide)) e.symm
  | case2 a b =>
    simp only [EncodeToString, List.mem_cons, not_or, List.mem_nil_iff, not_false_eq_true, and_true]
    refine ⟨?_, ?_, ?_⟩ <;>
      exact fun e => encodeChar_ne_dot _ (Nat.mod_lt _ (by decide)) e.symm
  | case3 a =>
    simp only [EncodeToString, List.mem_cons, not_or, List.mem_nil_iff, not_false_eq_true, and_true]
    refine ⟨?_, ?_⟩ <;>
      exact fun e => encodeChar_ne_dot _ (Nat.mod_lt _ (by decide)) e.symm
  | case4 => simp [EncodeToString]

theorem DecodeString_EncodeToString (s : List Byte) : DecodeString (EncodeToString s) = some s := by
  unfold DecodeString
  induction s using EncodeToString.induct with
  | case1 a b c rest ih =>
    have ha := a.isLt
    have hb := b.isLt
    have hc := c.isLt
    simp only [EncodeToString, decodeLoop, decodeMap_encodeChar _ (Nat.mod_lt _ (by decide : 0 < 64)),
      List.length_nil, List.nil_append, List.length_cons, List.cons_append, ih, quantumBytes]
    simp only [byteOf]
    simp
    refine ⟨?_, ?_, ?_⟩ <;> apply Fin.ext <;> simp <;> omega
  | case2 a b =>
    have ha := a.isLt
    have hb := b.isLt
    simp only [EncodeToString, decodeLoop, decodeMap_encodeChar _ (Nat.mod_lt _ (by decide : 0 < 64)),
      List.length_nil, List.nil_append, List.length_cons, List.cons_append, quantumBytes]
    simp only [byteOf]
    simp
    refine ⟨?_, ?_⟩ <;> apply Fin.ext <;> simp <;> omega
  | case3 a =>
    have ha := a.isLt
    simp only [EncodeToString, decodeLoop, decodeMap_encodeChar _ (Nat.mod_lt _ (by decide : 0 < 64)),
      List.length_nil, List.nil_append, List.length_cons, List.cons_append, quantumBytes]
    simp only [byteOf]
    simp
    apply Fin.ext; simp; omega
  | case4 => simp [EncodeToString, decodeLoop, quantumBytes]

/-! ## Lemmas on `strconv` -/

theorem digitVal_of_isDigit (c : Byte) (h : isDigit c = true) : digitVal c = some (c.val - 48) := by
  simp only [isDigit, decide_eq_true_eq] at h
  simp [digitVal, h]

theorem digitVal_lt_ten (c : Byte) (d : Nat) (h : digitVal c = some d) (hd : d < 10) :
    isDigit c = true ∧ d = c.val - 48 := by
  unfold digitVal at h
  split at h
  · rename_i hc
    simp only [Option.some.injEq] at h
    exact ⟨by simp [isDigit, hc], h.symm⟩
  · split at h
    · simp only [Option.some.injEq] at h
      omega
    · cases h

theorem digitVal_none (c : Byte) (h : digitVal c = none) : isDigit c = false := by
  unfold digitVal at h
  split at h
  · cases h
  · rename_i hc
    simp [isDigit, hc]

theorem decFold_cons (n : Nat) (c : Byte) (cs : Str) :
    decFold n (c :: cs) = decFold (n * 10 + (c.val - 48)) cs := rfl

theorem decFold_append (n : Nat) (a b : Str) : decFold n (a ++ b) = decFold (decFold n a) b := by
  simp [decFold, List.foldl_append]

theorem le_decFold (cs : Str) : ∀ n, n ≤ decFold n cs := by
  induction cs with
  | nil => intro n; exact Nat.le_refl _
  | cons c cs ih =>
    intro n
    rw [decFold_cons]
    have := ih (n * 10 + (c.val - 48))
    omega

/-- The three ways the loop of `ParseUint` ends. -/
theorem parseUintLoop_shape (s0 : Str) (cs : Str) : ∀ n, n ≤ maxUint64 →
    (parseUintLoop s0 cs n = (decFold n cs, none) ∧ cs.all isDigit = true ∧
        decFold n cs ≤ maxUint64) ∨
    (parseUintLoop s0 cs n = (0, some (syntaxError fnParseUint s0)) ∧ cs.all isDigit = false) ∨
    (parseUintLoop s0 cs n = (maxUint64, some (rangeError fnParseUint s0)) ∧
        (cs.all isDigit = true → maxUint64 < decFold n cs)) := by
  induction cs with
  | nil =>
    intro n hn
    left
    exact ⟨rfl, rfl, hn⟩
  | cons c cs ih =>
    intro n hn
    unfold parseUintLoop
    cases hdv : digitVal c with
    | none =>
      right; left
      simp [digitVal_none c hdv]
    | some d =>
      by_cases hd : d ≥ 10
      · right; left
        have hnd : isDigit c = false := by
          by_contra hc
          have := digitVal_of_isDigit c (by simpa using hc)
          rw [hdv] at this
          simp only [isDigit, Bool.not_eq_false, decide_eq_true_eq] at hc
          simp only [Option.some.injEq] at this
          omega
        simp [hd, hnd]
      · obtain ⟨hcd, hdc⟩ := digitVal_lt_ten c d hdv (by omega)
        simp only [hd, if_false]
        by_cases hcut : n ≥ maxUint64 / 10 + 1
        · right; right
          simp only [hcut, if_true, true_and]
          intro _
          rw [decFold_cons]
          have := le_decFold cs (n * 10 + (c.val - 48))
          simp only [maxUint64] at hcut ⊢
          omega
        · simp only [hcut, if_false]
          by_cases hov : (n * 10 + d) % 18446744073709551616 < n * 10 ∨
              (n * 10 + d) % 18446744073709551616 > maxUint64
          · right; right
            simp only [hov, if_true, true_and]
            intro _
            rw [decFold_cons]
            have := le_decFold cs (n * 10 + (c.val - 48))
            simp only [maxUint64] at hcut hov ⊢
            omega
          · simp only [hov, if_false]
            have hn1 : (n * 10 + d) % 18446744073709551616 = n * 10 + (c.val - 48) := by
              simp only [maxUint64] at hcut hov
              omega
            have hle : n * 10 + (c.val - 48) ≤ maxUint64 := by
              simp only [maxUint64] at hcut hov ⊢
              omega
            rw [hn1, decFold_cons]
            rcases ih (n * 10 + (c.val - 48)) hle with ⟨h1, h2, h3⟩ | ⟨h1, h2⟩ | ⟨h1, h2⟩
            · left
              exact ⟨h1, by simp [hcd, h2], h3⟩
            · right; left
              exact ⟨h1, by simp [h2]⟩
            · right; right
              refine ⟨h1, fun hall => h2 ?_⟩
              simp only [List.all_cons, Bool.and_eq_true] at hall
              exact hall.2

/-- The three ways `ParseUint` ends. -/
theorem ParseUint_shape (ds : Str) :
    (ParseUint ds = (decimalValue ds, none) ∧ ds.isEmpty = false ∧ ds.all isDigit = true ∧
        decimalValue ds ≤ maxUint64) ∨
    (ParseUint ds = (0, some (syntaxError fnParseUint ds)) ∧
        (ds.isEmpty = true ∨ ds.all isDigit = false)) ∨
    (ParseUint ds = (maxUint64, some (rangeError fnParseUint ds)) ∧ ds.isEmpty = false ∧
        (ds.all isDigit = true → maxUint64 < decimalValue ds)) := by
  cases ds with
  | nil => right; left; exact ⟨rfl, Or.inl rfl⟩
  | cons c cs =>
    have h := parseUintLoop_shape (c :: cs) (c :: cs) 0 (by decide)
    simp only [ParseUint, decimalValue]
    rcases h with ⟨h1, h2, h3⟩ | ⟨h1, h2⟩ | ⟨h1, h2⟩
    · left; exact ⟨h1, rfl, h2, h3⟩
    · right; left; exact ⟨h1, Or.inr h2⟩
    · right; right; exact ⟨h1, rfl, h2⟩

/-- The body of `ParseInt` after the sign has been picked off. -/
theorem ParseInt_cons (c : Byte) (rest : Str) :
    ParseInt (c :: rest) =
      (let neg : Bool := decide (c = 45)
       let r := ParseUint (if c = 43 ∨ c = 45 then rest else c :: rest)
       let keep : Bool :=
         match r.2 with
         | some e => decide (e.Err = .ErrRange)
         | none => true
       if !keep then (0, some (syntaxError fnParseInt (c :: rest)))
       else if !neg && decide (r.1 ≥ 9223372036854775808) then
         (((9223372036854775808 - 1 : Nat) : Int), some (rangeError fnParseInt (c :: rest)))
       else if neg && decide (r.1 > 9223372036854775808) then
         (-((9223372036854775808 : Nat) : Int), some (rangeError fnParseInt (c :: rest)))
       else (if neg then wrapInt64 (-(wrapInt64 (r.1 : Int))) else wrapInt64 (r.1 : Int), none)) := by
  by_cases h43 : c = 43
  · subst h43
    simp [ParseInt]
  · by_cases h45 : c = 45
    · subst h45
      simp [ParseInt]
    · simp [ParseInt, h43, h45]

theorem ParseInt_spec (s : Str) :
    (∀ i, decimalInt64 s = some i → ParseInt s = (i, none)) ∧
    (decimalInt64 s = none → ∃ v cause, ParseInt s = (v, some ⟨fnParseInt, s, cause⟩)) := by
  cases s with
  | nil =>
    refine ⟨fun i h => by simp [decimalInt64] at h, fun _ => ⟨0, .ErrSyntax, rfl⟩⟩
  | cons c rest =>
    rw [ParseInt_cons]
    simp only [decimalInt64]
    generalize (if c = 43 ∨ c = 45 then rest else c :: rest) = ds
    rcases ParseUint_shape ds with ⟨h1, h2, h3, h4⟩ | ⟨h1, h2⟩ | ⟨h1, h2, h3⟩
    · simp only [h1, h2, h3, if_true, Bool.not_true, Bool.false_eq_true, if_false]
      by_cases h45 : c = 45
      · simp only [h45, decide_True, Bool.not_true, Bool.false_and, Bool.false_eq_true, if_false,
          Bool.true_and, decide_eq_true_eq, if_true]
        by_cases hr : decimalValue ds > 9223372036854775808
        · simp only [hr, if_true]
          have : ¬ (minInt64 ≤ -(decimalValue ds : Int) ∧ -(decimalValue ds : Int) ≤ maxInt64) := by
            simp only [minInt64, maxInt64]; omega
          simp only [this, if_false]
          exact ⟨fun i h => (by cases h), fun _ => ⟨_, .ErrRange, rfl⟩⟩
        · simp only [hr, if_false]
          have hin : minInt64 ≤ -(decimalValue ds : Int) ∧ -(decimalValue ds : Int) ≤ maxInt64 := by
            simp only [minInt64, maxInt64]; omega
          simp only [hin, and_self, if_true]
          refine ⟨fun i h => ?_, fun h => by cases h⟩
          simp only [Option.some.injEq] at h
          subst h
          simp only [wrapInt64, Prod.mk.injEq, and_true]
          omega
      · simp only [h45, decide_False, Bool.not_false, Bool.true_and, decide_eq_true_eq,
          Bool.false_and, Bool.false_eq_true, if_false]
        by_cases hr : decimalValue ds ≥ 9223372036854775808
        · simp only [hr, if_true]
          have : ¬ (minInt64 ≤ (decimalValue ds : Int) ∧ (decimalValue ds : Int) ≤ maxInt64) := by
            simp only [minInt64, maxInt64]; omega
          simp only [this, if_false]
          exact ⟨fun i h => (by cases h), fun _ => ⟨_, .ErrRange, rfl⟩⟩
        · simp only [hr, if_false]
          have hin : minInt64 ≤ (decimalValue ds : Int) ∧ (decimalValue ds : Int) ≤ maxInt64 := by
            simp only [minInt64, maxInt64]; omega
          simp only [hin, and_self, if_true]
          refine ⟨fun i h => ?_, fun h => by cases h⟩
          simp only [Option.some.injEq] at h
          subst h
          simp only [wrapInt64, Prod.mk.injEq, and_true]
          omega
    · have hnone : (if ds.isEmpty = true then (none : Option Int)
          else if ds.all isDigit = true then
            (if minInt64 ≤ (if c = 45 then -(decimalValue ds : Int) else (decimalValue ds : Int)) ∧
                (if c = 45 then -(decimalValue ds : Int) else (decimalValue ds : Int)) ≤ maxInt64
              then some (if c = 45 then -(decimalValue ds : Int) else (decimalValue ds : Int))
              else none)
          else none) = none := by
        rcases h2 with h2 | h2
        · simp [h2]
        · simp [h2]
      simp only [hnone, h1]
      exact ⟨fun i h => (by cases h), fun _ => ⟨0, .ErrSyntax, by simp [syntaxError]⟩⟩
    · simp only [h1, h2]
      have hbig : ¬ (decimalValue ds : Int) ≤ 9223372036854775808 ∨ ds.all isDigit = false := by
        cases hall : ds.all isDigit with
        | false => right; rfl
        | true =>
          left
          have := h3 hall
          simp only [maxUint64] at this
          omega
      have hnone : (if ds.all isDigit = true then
            (if minInt64 ≤ (if c = 45 then -(decimalValue ds : Int) else (decimalValue ds : Int)) ∧
                (if c = 45 then -(decimalValue ds : Int) else (decimalValue ds : Int)) ≤ maxInt64
              then some (if c = 45 then -(decimalValue ds : Int) else (decimalValue ds : Int))
              else none)
          else none) = none := by
        rcases hbig with hb | hb
        · have : ¬ (minInt64 ≤ (if c = 45 then -(decimalValue ds : Int) else (decimalValue ds : Int)) ∧
                (if c = 45 then -(decimalValue ds : Int) else (decimalValue ds : Int)) ≤ maxInt64) := by
            simp only [minInt64, maxInt64]
            split <;> omega
          simp [this]
        · simp [hb]
      simp only [Bool.false_eq_true, if_false, hnone]
      refine ⟨fun i h => (by cases h), fun _ => ?_⟩
      by_cases h45 : c = 45
      · exact ⟨-9223372036854775808, .ErrRange, by simp [h45, rangeError, maxUint64]⟩
      · exact ⟨9223372036854775807, .ErrRange, by simp [h45, rangeError, maxUint64]⟩

theorem isDigit_digitByte (d : Nat) : isDigit (digitByte d) = true := by
  simp only [isDigit, digitByte, decide_eq_true_eq]
  omega

theorem decimalValue_digitByte (d : Nat) (h : d < 10) : decimalValue [digitByte d] = d := by
  simp only [decimalValue, decFold, digitByte, List.foldl_cons, List.foldl_nil]
  omega

/-- The digits `formatBits` writes: a run of decimal digits that is not empty,
has no leading zero unless it is `0` alone, and denotes `u`. -/
theorem formatBits_spec (fuel : Nat) : ∀ (u : Nat) (acc : Str), u < 10 ^ (fuel + 1) →
    ∃ ds : Str, formatBits (fuel + 1) u acc = ds ++ acc ∧ ds ≠ [] ∧ ds.all isDigit = true ∧
      (ds.head? = some 48 → ds = [48]) ∧ decimalValue ds = u := by
  induction fuel with
  | zero =>
    intro u acc hu
    have hu10 : u < 10 := by simpa using hu
    refine ⟨[digitByte u], by simp [formatBits, hu10], by simp, by simp [isDigit_digitByte], ?_,
      decimalValue_digitByte u hu10⟩
    intro h
    simp only [List.head?_cons, Option.some.injEq] at h
    rw [h]
  | succ fuel ih =>
    intro u acc hu
    by_cases hu10 : u < 10
    · refine ⟨[digitByte u], by simp [formatBits, hu10], by simp, by simp [isDigit_digitByte], ?_,
        decimalValue_digitByte u hu10⟩
      intro h
      simp only [List.head?_cons, Option.some.injEq] at h
      rw [h]
    · have hdiv : u / 10 < 10 ^ (fuel + 1) := by
        rw [Nat.div_lt_iff_lt_mul (by decide)]
        rw [pow_succ] at hu
        exact hu
      obtain ⟨ds, hds, hne, hall, hz, hval⟩ := ih (u / 10) (digitByte (u % 10) :: acc) hdiv
      refine ⟨ds ++ [digitByte (u % 10)], ?_, by simp, ?_, ?_, ?_⟩
      · rw [formatBits]
        simp only [hu10, if_false]
        rw [hds]
        simp
      · simp [hall, isDigit_digitByte]
      · intro h
        exfalso
        cases ds with
        | nil => exact hne rfl
        | cons d ds' =>
          simp only [List.cons_append, List.head?_cons, Option.some.injEq] at h
          have := hz (by simp [h])
          rw [this] at hval
          simp only [decimalValue, decFold, List.foldl_cons, List.foldl_nil] at hval
          have h48 : ((48 : Byte).val) = 48 := rfl
          omega
      · simp only [decimalValue] at hval ⊢
        rw [decFold_append, hval]
        simp only [decFold, digitByte, List.foldl_cons, List.foldl_nil]
        omega

theorem FormatUint_spec (u : Nat) (hu : u ≤ 18446744073709551615) :
    ∃ ds : Str, FormatUint u = ds ∧ ds ≠ [] ∧ ds.all isDigit = true ∧
      (ds.head? = some 48 → ds = [48]) ∧ decimalValue ds = u := by
  obtain ⟨ds, hds, h⟩ := formatBits_spec 19 u [] (by omega)
  exact ⟨ds, by simpa [FormatUint] using hds, h⟩

/-- The text `FormatInt` writes for an `int64`: a `'-'` exactly for a negative
value, then the digits of the magnitude. -/
theorem FormatInt_shape (i : Int) (hmin : minInt64 ≤ i) (hmax : i ≤ maxInt64) :
    ∃ ds : Str, FormatInt i = (if i < 0 then [(45 : Byte)] else []) ++ ds ∧ ds ≠ [] ∧
      ds.all isDigit = true ∧ (ds.head? = some 48 → ds = [48]) ∧ decimalValue ds = i.natAbs := by
  simp only [minInt64, maxInt64] at hmin hmax
  by_cases hneg : i < 0
  · obtain ⟨ds, hds, h1, h2, h3, h4⟩ := FormatUint_spec (-i).toNat (by omega)
    refine ⟨ds, by simp [FormatInt, hneg, hds], h1, h2, h3, ?_⟩
    rw [h4]; omega
  · obtain ⟨ds, hds, h1, h2, h3, h4⟩ := FormatUint_spec i.toNat (by omega)
    refine ⟨ds, by simp [FormatInt, hneg, hds], h1, h2, h3, ?_⟩
    rw [h4]; omega

theorem isDigit_ne (c : Byte) (h : isDigit c = true) : c ≠ 43 ∧ c ≠ 45 ∧ c ≠ slash ∧ c ≠ dot := by
  refine ⟨?_, ?_, ?_, ?_⟩ <;> intro e <;> subst e <;> revert h <;> decide

theorem decimalInt64_FormatInt (i : Int) (hmin : minInt64 ≤ i) (hmax : i ≤ maxInt64) :
    decimalInt64 (FormatInt i) = some i := by
  obtain ⟨ds, hds, hne, hall, _, hval⟩ := FormatInt_shape i hmin hmax
  rw [hds]
  cases ds with
  | nil => exact absurd rfl hne
  | cons d ds' =>
    have hd : isDigit d = true := by
      simp only [List.all_cons, Bool.and_eq_true] at hall
      exact hall.1
    obtain ⟨h43, h45, _, _⟩ := isDigit_ne d hd
    by_cases hneg : i < 0
    · simp only [hneg, if_true, List.singleton_append, decimalInt64, or_true, List.isEmpty_cons,
        Bool.false_eq_true, if_false, hall, hval]
      have : minInt64 ≤ -((i.natAbs : Nat) : Int) ∧ -((i.natAbs : Nat) : Int) ≤ maxInt64 := by
        simp only [minInt64, maxInt64] at hmin hmax ⊢
        omega
      simp only [this, and_self, if_true, Option.some.injEq]
      omega
    · simp only [hneg, if_false, List.nil_append, decimalInt64, h43, h45, or_self,
        List.isEmpty_cons, Bool.false_eq_true, hall, if_true, hval]
      have : minInt64 ≤ ((i.natAbs : Nat) : Int) ∧ ((i.natAbs : Nat) : Int) ≤ maxInt64 := by
        simp only [minInt64, maxInt64] at hmin hmax ⊢
        omega
      simp only [this, and_self, if_true, Option.some.injEq]
      omega

theorem ParseInt_FormatInt (i : Int) (hmin : minInt64 ≤ i) (hmax : i ≤ maxInt64) :
    ParseInt (FormatInt i) = (i, none) :=
  (ParseInt_spec (FormatInt i)).1 i (decimalInt64_FormatInt i hmin hmax)

theorem slash_not_mem_FormatInt (i : Int) (hmin : minInt64 ≤ i) (hmax : i ≤ maxInt64) :
    slash ∉ FormatInt i := by
  obtain ⟨ds, hds, _, hall, _, _⟩ := FormatInt_shape i hmin hmax
  rw [hds]
  intro hm
  rw [List.mem_append] at hm
  rcases hm with hm | hm
  · split at hm
    · simp [slash] at hm
    · simp at hm
  · rw [List.all_eq_true] at hall
    exact (isDigit_ne slash (hall slash hm)).2.2.1 rfl

/-! ## The operations of `PathFormatter` -/

/-- `ExtractSignature` on a path cut at its first `'.'`, the text before it
having a first byte. -/
theorem ExtractSignature_split (f : PathFormatter) (c0 : Byte) (e rest q : Str)
    (h : dot ∉ c0 :: e) :
    ExtractSignature f ⟨c0 :: (e ++ dot :: rest), q⟩ =
      match DecodeString e with
      | none =>
        { url := ⟨c0 :: (e ++ dot :: rest), q⟩,
          out := .err (.wrapped .ErrInvalidSignature (str ": invalid base64: " ++ e)) }
      | some sig =>
        { url := ⟨rest, if f.signer.skipQuery then [] else q⟩, out := .ok sig } := by
  have hc : Cut (c0 :: (e ++ dot :: rest)) dot = (c0 :: e, rest, true) := by
    have := Cut_append (c0 :: e) rest dot h
    simpa using this
  unfold ExtractSignature
  simp only [hc]
  cases DecodeString e with
  | none => rfl
  | some sig =>
    simp only
    cases f.signer.skipQuery <;> rfl

/-- `ExtractExpiry` on a path cut at its first `'/'`. -/
theorem ExtractExpiry_split (f : PathFormatter) (d rest q : Str) (h : slash ∉ d) :
    ExtractExpiry f ⟨d ++ slash :: rest, q⟩ =
      match ParseInt d with
      | (_, some err) => { url := ⟨slash :: rest, q⟩, out := .err (.num err) }
      | (expInt, none) => { url := ⟨slash :: rest, q⟩, out := .ok (timeUnix expInt) } := by
  unfold ExtractExpiry
  simp only [Cut_append d rest slash h]

theorem ExtractSignature_no_dot (f : PathFormatter) (u : URL) (h : dot ∉ u.Path) :
    ExtractSignature f u = { url := u, out := .err (.sentinel .ErrInvalidSignedURL) } := by
  unfold ExtractSignature
  simp only [Cut_of_not_mem u.Path dot h]

theorem ExtractExpiry_no_slash (f : PathFormatter) (u : URL) (h : slash ∉ u.Path) :
    ExtractExpiry f u = { url := u, out := .err (.sentinel .ErrInvalidSignedURL) } := by
  unfold ExtractExpiry
  simp only [Cut_of_not_mem u.Path slash h]

/-- A path with a `'.'` either starts with it or has a first byte and a text
before its first `'.'`. -/
theorem path_dot_cases (p : Str) (h : dot ∈ p) :
    (∃ rest, p = dot :: rest) ∨
    (∃ c0 e rest, dot ∉ c0 :: e ∧ p = c0 :: (e ++ dot :: rest)) := by
  obtain ⟨a, b, ha, hp⟩ := exists_first_split p dot h
  cases a with
  | nil => left; exact ⟨b, by simpa using hp⟩
  | cons c0 e => right; exact ⟨c0, e, b, ha, by simpa using hp⟩

theorem ExtractSignature_leading_dot (f : PathFormatter) (rest q : Str) :
    ExtractSignature f ⟨dot :: rest, q⟩ = { url := ⟨dot :: rest, q⟩, out := .panic } := by
  have hc : Cut (dot :: rest) dot = ([], rest, true) := by
    have := Cut_append [] rest dot (by simp)
    simpa using this
  unfold ExtractSignature
  simp only [hc]

/-! ## Properties of the operations -/

/-- C1: for every path `p` that starts with `'/'`, every expiry `t` (negative
Unix times included) and every byte sequence `s` (the empty one included),
`AddExpiry` then `AddSignature` followed by `ExtractSignature` then
`ExtractExpiry` succeeds and gives back exactly `s`, the path `p`, and `t` cut
down to whole seconds; dots inside `p` do no harm. -/
theorem C1_round_trip (f g : PathFormatter) (p q : Str) (t : Time) (s : List Byte)
    (hp : p.head? = some slash) (ht : t.valid) :
    (ExtractSignature g (AddSignature f (AddExpiry f ⟨p, q⟩ t) s)).out = .ok s ∧
    (ExtractExpiry g (ExtractSignature g (AddSignature f (AddExpiry f ⟨p, q⟩ t) s)).url).out
      = .ok t.truncSecond ∧
    (ExtractExpiry g (ExtractSignature g (AddSignature f (AddExpiry f ⟨p, q⟩ t) s)).url).url.Path
      = p := by
  obtain ⟨p', rfl⟩ : ∃ p', p = slash :: p' := by
    cases p with
    | nil => simp at hp
    | cons c p' =>
      simp only [List.head?_cons, Option.some.injEq] at hp
      exact ⟨p', by rw [hp]⟩
  obtain ⟨hmin, hmax⟩ := Unix_range t
  have hdot : dot ∉ slash :: EncodeToString s := by
    intro hm
    rcases List.mem_cons.mp hm with e | e
    · exact absurd e (by decide)
    · exact dot_not_mem_EncodeToString s e
  have h1 : ExtractSignature g (AddSignature f (AddExpiry f ⟨slash :: p', q⟩ t) s) =
      { url := ⟨FormatInt t.Unix ++ slash :: p', if g.signer.skipQuery then [] else q⟩,
        out := .ok s } := by
    have := ExtractSignature_split g slash (EncodeToString s) (FormatInt t.Unix ++ slash :: p') q hdot
    rw [DecodeString_EncodeToString] at this
    exact this
  have h2 := ExtractExpiry_split g (FormatInt t.Unix) p' (if g.signer.skipQuery then [] else q)
    (slash_not_mem_FormatInt _ hmin hmax)
  rw [ParseInt_FormatInt _ hmin hmax] at h2
  rw [h1]
  simp only [h2, timeUnix_Unix t ht, and_self]

/-- C1, at the path `/foo.bar/baz.txt`, with a time before 1970 that has a
sub-second part, and the empty signature. -/
theorem C1_round_trip_witness :
    (str "/foo.bar/baz.txt").head? = some slash ∧
    Time.valid { ext := 62135596700, nsec := 5 } ∧
    (ExtractSignature ⟨⟨true⟩⟩ (AddSignature ⟨⟨false⟩⟩ (AddExpiry ⟨⟨false⟩⟩
      ⟨str "/foo.bar/baz.txt", str "x=1"⟩ { ext := 62135596700, nsec := 5 }) [])).out = .ok [] ∧
    (ExtractExpiry ⟨⟨true⟩⟩ (ExtractSignature ⟨⟨true⟩⟩ (AddSignature ⟨⟨false⟩⟩ (AddExpiry ⟨⟨false⟩⟩
      ⟨str "/foo.bar/baz.txt", str "x=1"⟩ { ext := 62135596700, nsec := 5 }) [])).url).out
      = .ok (Time.truncSecond { ext := 62135596700, nsec := 5 }) ∧
    (ExtractExpiry ⟨⟨true⟩⟩ (ExtractSignature ⟨⟨true⟩⟩ (AddSignature ⟨⟨false⟩⟩ (AddExpiry ⟨⟨false⟩⟩
      ⟨str "/foo.bar/baz.txt", str "x=1"⟩ { ext := 62135596700, nsec := 5 }) [])).url).url.Path
      = str "/foo.bar/baz.txt" :=
  ⟨by decide, by decide,
    C1_round_trip ⟨⟨false⟩⟩ ⟨⟨true⟩⟩ (str "/foo.bar/baz.txt") (str "x=1")
      { ext := 62135596700, nsec := 5 } [] (by decide) (by decide)⟩

/-- C2, as amended: from path `/foo/bar`, an expiry whose Unix time is
390830893 and the signature bytes `AA BB CC`, `AddExpiry` sets the path to
`390830893/foo/bar` and `AddSignature` then sets it to exactly
`/qrvM.390830893/foo/bar`: the unpadded URL-safe base64 text of `AA BB CC` is
`qrvM`. -/
theorem C2_encoding_example (f : PathFormatter) (q : Str) (t : Time) (ht : t.Unix = 390830893) :
    (AddExpiry f ⟨str "/foo/bar", q⟩ t).Path = str "390830893/foo/bar" ∧
    (AddSignature f (AddExpiry f ⟨str "/foo/bar", q⟩ t) [0xAA, 0xBB, 0xCC]).Path
      = str "/qrvM.390830893/foo/bar" ∧
    EncodeToString [0xAA, 0xBB, 0xCC] = str "qrvM" := by
  simp only [AddExpiry, AddSignature, ht]
  decide

/-- C2 as amended, at `time.Unix(390830893, 0)`. -/
theorem C2_encoding_example_witness :
    (timeUnix 390830893).Unix = 390830893 ∧
    (AddExpiry ⟨⟨false⟩⟩ ⟨str "/foo/bar", []⟩ (timeUnix 390830893)).Path
      = str "390830893/foo/bar" ∧
    (AddSignature ⟨⟨false⟩⟩ (AddExpiry ⟨⟨false⟩⟩ ⟨str "/foo/bar", []⟩ (timeUnix 390830893))
      [0xAA, 0xBB, 0xCC]).Path = str "/qrvM.390830893/foo/bar" ∧
    EncodeToString [0xAA, 0xBB, 0xCC] = str "qrvM" :=
  ⟨by decide, C2_encoding_example ⟨⟨false⟩⟩ [] (timeUnix 390830893) (by decide)⟩

/-- C2 as stated fails: for the bytes `AA BB CC` the path after `AddSignature`
is not `/q7vM.390830893/foo/bar`, and their encoding is not `q7vM`. -/
theorem C2_stated_example_fails :
    (AddSignature ⟨⟨false⟩⟩ (AddExpiry ⟨⟨false⟩⟩ ⟨str "/foo/bar", []⟩ (timeUnix 390830893))
      [0xAA, 0xBB, 0xCC]).Path ≠ str "/q7vM.390830893/foo/bar" ∧
    EncodeToString [0xAA, 0xBB, 0xCC] ≠ str "q7vM" := by
  decide

/-- C3, as amended: `ExtractSignature` on the path `/q7vM.390830893/foo/bar`
succeeds, leaves the path `390830893/foo/bar`, and returns exactly the bytes
`AB BB CC`. -/
theorem C3_decoding_example (f : PathFormatter) (q : Str) :
    (ExtractSignature f ⟨str "/q7vM.390830893/foo/bar", q⟩).out = .ok [0xAB, 0xBB, 0xCC] ∧
    (ExtractSignature f ⟨str "/q7vM.390830893/foo/bar", q⟩).url.Path
      = str "390830893/foo/bar" := by
  have hs : str "/q7vM.390830893/foo/bar"
      = slash :: (str "q7vM" ++ dot :: str "390830893/foo/bar") := by decide
  have hd : DecodeString (str "q7vM") = some [0xAB, 0xBB, 0xCC] := by decide
  rw [hs, ExtractSignature_split f slash (str "q7vM") (str "390830893/foo/bar") q (by decide), hd]
  exact ⟨rfl, rfl⟩

/-- C3 as stated fails: the bytes returned for `/q7vM.390830893/foo/bar` are
not `AA BB CC`. -/
theorem C3_stated_example_fails :
    (ExtractSignature ⟨⟨false⟩⟩ ⟨str "/q7vM.390830893/foo/bar", []⟩).out
      ≠ .ok [0xAA, 0xBB, 0xCC] := by
  decide

/-- C4: `ExtractSignature` returns `ErrInvalidSignedURL` for every URL whose
path has no `'.'`, whatever the query and `skipQuery` (so for
`/onlysignaturebytesnodot` and for the empty path), and for a path with a
`'.'` no error it returns is `ErrInvalidSignedURL`. -/
theorem C4_missing_dot (f : PathFormatter) (u : URL) :
    (dot ∉ u.Path → (ExtractSignature f u).out = .err (.sentinel .ErrInvalidSignedURL)) ∧
    (dot ∈ u.Path → ∀ e, (ExtractSignature f u).out = .err e →
      e.Is .ErrInvalidSignedURL = false) ∧
    (ExtractSignature f ⟨str "/onlysignaturebytesnodot", u.RawQuery⟩).out
      = .err (.sentinel .ErrInvalidSignedURL) ∧
    (ExtractSignature f ⟨[], u.RawQuery⟩).out = .err (.sentinel .ErrInvalidSignedURL) := by
  refine ⟨fun h => by rw [ExtractSignature_no_dot f u h], ?_, ?_, ?_⟩
  · intro h e he
    obtain ⟨p, q⟩ := u
    rcases path_dot_cases p h with ⟨rest, rfl⟩ | ⟨c0, enc, rest, hn, rfl⟩
    · rw [ExtractSignature_leading_dot] at he
      cases he
    · rw [ExtractSignature_split f c0 enc rest q hn] at he
      cases hdec : DecodeString enc with
      | none =>
        rw [hdec] at he
        simp only [Outcome.err.injEq] at he
        subst he
        rfl
      | some sig =>
        rw [hdec] at he
        cases he
  · rw [ExtractSignature_no_dot f _ (show dot ∉ str "/onlysignaturebytesnodot" by decide)]
  · rw [ExtractSignature_no_dot f _ (by simp)]

/-- C4 at a path without `'.'` and at one with it. -/
theorem C4_missing_dot_witness :
    (ExtractSignature ⟨⟨true⟩⟩ ⟨str "/abc", str "x=1"⟩).out
      = .err (.sentinel .ErrInvalidSignedURL) ∧
    (∀ e, (ExtractSignature ⟨⟨true⟩⟩ ⟨str "/a!.1/foo", str "x=1"⟩).out = .err e →
      e.Is .ErrInvalidSignedURL = false) :=
  ⟨(C4_missing_dot ⟨⟨true⟩⟩ ⟨str "/abc", str "x=1"⟩).1 (by decide),
   (C4_missing_dot ⟨⟨true⟩⟩ ⟨str "/a!.1/foo", str "x=1"⟩).2.1 (by decide)⟩

/-- C5: `ExtractExpiry` returns `ErrInvalidSignedURL` exactly for the paths
with no `'/'`: it does for every such path, numeric or not, and for a path
with a `'/'` no error it returns is `ErrInvalidSignedURL`. For every byte
sequence `s` and every text `d` without `'/'` (so every decimal text), the
envelope `"/" ++ base64url(s) ++ "." ++ d` passes `ExtractSignature`, which
returns `s`, and then fails in `ExtractExpiry` with `ErrInvalidSignedURL`. -/
theorem C5_missing_slash (f : PathFormatter) (u : URL) :
    (slash ∉ u.Path → (ExtractExpiry f u).out = .err (.sentinel .ErrInvalidSignedURL)) ∧
    (slash ∈ u.Path → ∀ e, (ExtractExpiry f u).out = .err e →
      e.Is .ErrInvalidSignedURL = false) ∧
    (∀ (s : List Byte) (d : Str), slash ∉ d →
      (ExtractSignature f ⟨slash :: (EncodeToString s ++ dot :: d), u.RawQuery⟩).out = .ok s ∧
      (ExtractExpiry f
        (ExtractSignature f ⟨slash :: (EncodeToString s ++ dot :: d), u.RawQuery⟩).url).out
        = .err (.sentinel .ErrInvalidSignedURL)) := by
  refine ⟨fun h => by rw [ExtractExpiry_no_slash f u h], ?_, ?_⟩
  · intro h e he
    obtain ⟨p, q⟩ := u
    obtain ⟨d, rest, hd, rfl⟩ := exists_first_split p slash h
    rw [ExtractExpiry_split f d rest q hd] at he
    rcases hpi : ParseInt d with ⟨v, _ | err⟩
    · rw [hpi] at he
      cases he
    · rw [hpi] at he
      simp only [Outcome.err.injEq] at he
      subst he
      rfl
  · intro s d hd
    have hdot : dot ∉ slash :: EncodeToString s := by
      intro hm
      rcases List.mem_cons.mp hm with e | e
      · exact absurd e (by decide)
      · exact dot_not_mem_EncodeToString s e
    rw [ExtractSignature_split f slash (EncodeToString s) d u.RawQuery hdot,
      DecodeString_EncodeToString]
    exact ⟨rfl, by rw [ExtractExpiry_no_slash f _ hd]⟩

/-- C5 at the payload `12345`, at a payload with a `'/'`, and at the envelope
of the signature `AA BB CC` with the decimal text `12345`. -/
theorem C5_missing_slash_witness :
    (ExtractExpiry ⟨⟨false⟩⟩ ⟨str "12345", []⟩).out = .err (.sentinel .ErrInvalidSignedURL) ∧
    (∀ e, (ExtractExpiry ⟨⟨false⟩⟩ ⟨str "abc/foo", []⟩).out = .err e →
      e.Is .ErrInvalidSignedURL = false) ∧
    (ExtractSignature ⟨⟨false⟩⟩
      ⟨slash :: (EncodeToString [0xAA, 0xBB, 0xCC] ++ dot :: str "12345"), []⟩).out
      = .ok [0xAA, 0xBB, 0xCC] ∧
    (ExtractExpiry ⟨⟨false⟩⟩ (ExtractSignature ⟨⟨false⟩⟩
      ⟨slash :: (EncodeToString [0xAA, 0xBB, 0xCC] ++ dot :: str "12345"), []⟩).url).out
      = .err (.sentinel .ErrInvalidSignedURL) :=
  ⟨(C5_missing_slash ⟨⟨false⟩⟩ ⟨str "12345", []⟩).1 (by decide),
   (C5_missing_slash ⟨⟨false⟩⟩ ⟨str "abc/foo", []⟩).2.1 (by decide),
   (C5_missing_slash ⟨⟨false⟩⟩ ⟨str "12345", []⟩).2.2 [0xAA, 0xBB, 0xCC] (str "12345") (by decide)⟩

/-! ## Which texts `DecodeString` accepts -/

set_option maxRecDepth 100000 in
theorem decodeMap_isSome_iff (c : Byte) : (decodeMap c).isSome = inAlphabet c := by
  revert c
  decide

set_option maxRecDepth 100000 in
theorem isNewline_not_inAlphabet (c : Byte) (h : isNewline c = true) : inAlphabet c = false := by
  revert c
  decide

theorem quantumBytes_isSome (dbuf : List Nat) (h : dbuf.length ≤ 4) :
    (quantumBytes dbuf).isSome = decide (dbuf.length ≠ 1) := by
  match dbuf, h with
  | [], _ => rfl
  | [_], _ => rfl
  | [_, _], _ => rfl
  | [_, _, _], _ => rfl
  | [_, _, _, _], _ => rfl
  | _ :: _ :: _ :: _ :: _ :: _, h => simp at h

theorem decodeLoop_isSome (cs : Str) : ∀ dbuf : List Nat, dbuf.length ≤ 3 →
    (decodeLoop cs dbuf).isSome =
      ((stripNewlines cs).all inAlphabet &&
        decide ((dbuf.length + (stripNewlines cs).length) % 4 ≠ 1)) := by
  induction cs with
  | nil =>
    intro dbuf h
    have hq := quantumBytes_isSome dbuf (by omega)
    by_cases h1 : dbuf.length = 1
    · simp [decodeLoop, stripNewlines, h1]
    · simp only [decodeLoop, h1, if_false, hq, stripNewlines, List.filter_nil, List.all_nil,
        List.length_nil, Nat.add_zero, Bool.true_and]
      apply decide_eq_decide.mpr
      omega
  | cons c cs ih =>
    intro dbuf h
    unfold decodeLoop
    cases hdm : decodeMap c with
    | some v =>
      have ha : inAlphabet c = true := by
        rw [← decodeMap_isSome_iff, hdm]; rfl
      have hnl : isNewline c = false := by
        by_contra hc
        have := isNewline_not_inAlphabet c (by simpa using hc)
        rw [ha] at this
        cases this
      have hstrip : stripNewlines (c :: cs) = c :: stripNewlines cs := by
        simp only [stripNewlines, List.filter_cons, hnl, Bool.not_false, if_true]
      rw [hstrip]
      simp only [List.all_cons, ha, Bool.true_and, List.length_cons]
      by_cases h3 : dbuf.length = 3
      · simp only [h3, if_true]
        have hq := quantumBytes_isSome (dbuf ++ [v]) (by simp; omega)
        have hq' : (quantumBytes (dbuf ++ [v])).isSome = true := by
          rw [hq]; simp [h3]
        obtain ⟨qb, hqb⟩ := Option.isSome_iff_exists.mp hq'
        rw [hqb]
        have := ih [] (by simp)
        simp only [List.length_nil, Nat.zero_add] at this
        cases hrec : decodeLoop cs [] with
        | none =>
          rw [hrec] at this
          simp only [Option.isSome_none] at this ⊢
          rw [this]
          congr 1
          apply decide_eq_decide.mpr
          omega
        | some r =>
          rw [hrec] at this
          simp only [Option.isSome_some] at this ⊢
          rw [this]
          congr 1
          apply decide_eq_decide.mpr
          omega
      · simp only [h3, if_false]
        rw [ih (dbuf ++ [v]) (by simp; omega)]
        congr 1
        apply decide_eq_decide.mpr
        simp only [List.length_append, List.length_cons, List.length_nil]
        omega
    | none =>
      have ha : inAlphabet c = false := by
        rw [← decodeMap_isSome_iff, hdm]; rfl
      by_cases hnl : c = 10 ∨ c = 13
      · have hn : isNewline c = true := by simp [isNewline, hnl]
        have hstrip : stripNewlines (c :: cs) = stripNewlines cs := by
          simp only [stripNewlines, List.filter_cons, hn, Bool.not_true, Bool.false_eq_true,
            if_false]
        simp only [hnl, if_true, hstrip]
        exact ih dbuf h
      · have hn : isNewline c = false := by simp [isNewline, hnl]
        have hstrip : stripNewlines (c :: cs) = c :: stripNewlines cs := by
          simp only [stripNewlines, List.filter_cons, hn, Bool.not_false, if_true]
        simp [hnl, hstrip, ha]

theorem DecodeString_isSome (e : Str) : (DecodeString e).isSome = looseRawURL e := by
  unfold DecodeString looseRawURL strictRawURL
  rw [decodeLoop_isSome e [] (by simp)]
  simp

theorem DecodeString_eq_none_iff (e : Str) : DecodeString e = none ↔ looseRawURL e = false := by
  rw [← DecodeString_isSome]
  cases DecodeString e <;> simp

/-- C6, as amended: for every path with a first byte other than `'.'` and
then a `'.'`, if the text `e` between the first byte and the first `'.'` is
not unpadded URL-safe base64 once its `'\n'` and `'\r'` bytes are taken out (a
byte outside `A-Z a-z 0-9 - _`, `'='` included, or a length of 1 modulo 4),
`ExtractSignature` returns an error that wraps `ErrInvalidSignature` and whose
message ends with `e` itself; so for `/not valid base64!.1700000000/foo`. -/
theorem C6_bad_base64 (f : PathFormatter) (text : Sentinel → Str) (quote : Str → Str)
    (c0 : Byte) (e rest q : Str)
    (hdot : dot ∉ c0 :: e) (hbad : looseRawURL e = false) :
    (ExtractSignature f ⟨c0 :: (e ++ dot :: rest), q⟩).out
      = .err (.wrapped .ErrInvalidSignature (str ": invalid base64: " ++ e)) ∧
    Error.Is (.wrapped .ErrInvalidSignature (str ": invalid base64: " ++ e))
      .ErrInvalidSignature = true ∧
    e <:+: Error.message text quote
      (.wrapped .ErrInvalidSignature (str ": invalid base64: " ++ e)) ∧
    (ExtractSignature f ⟨str "/not valid base64!.1700000000/foo", q⟩).out
      = .err (.wrapped .ErrInvalidSignature (str ": invalid base64: not valid base64!")) := by
  have hnone := (DecodeString_eq_none_iff e).mpr hbad
  refine ⟨?_, rfl, ?_, ?_⟩
  · rw [ExtractSignature_split f c0 e rest q hdot, hnone]
  · simp only [Error.message]
    rw [← List.append_assoc]
    exact (List.suffix_append _ e).isInfix
  · have hs : str "/not valid base64!.1700000000/foo"
        = slash :: (str "not valid base64!" ++ dot :: str "1700000000/foo") := by decide
    have hd : DecodeString (str "not valid base64!") = none := by decide
    rw [hs, ExtractSignature_split f slash _ _ q (by decide), hd]
    rfl

/-- C6 as amended, at the path `/q7v=.1/foo`, whose signature text holds the
padding byte. -/
theorem C6_bad_base64_witness :
    dot ∉ slash :: str "q7v=" ∧ looseRawURL (str "q7v=") = false ∧
    (ExtractSignature ⟨⟨false⟩⟩ ⟨slash :: (str "q7v=" ++ dot :: str "1/foo"), []⟩).out
      = .err (.wrapped .ErrInvalidSignature (str ": invalid base64: " ++ str "q7v=")) ∧
    Error.Is (.wrapped .ErrInvalidSignature (str ": invalid base64: " ++ str "q7v="))
      .ErrInvalidSignature = true ∧
    str "q7v=" <:+: Error.message (fun _ => str "invalid signature") id
      (.wrapped .ErrInvalidSignature (str ": invalid base64: " ++ str "q7v=")) ∧
    (ExtractSignature ⟨⟨false⟩⟩ ⟨str "/not valid base64!.1700000000/foo", []⟩).out
      = .err (.wrapped .ErrInvalidSignature (str ": invalid base64: not valid base64!")) :=
  ⟨by decide, by decide,
    C6_bad_base64 ⟨⟨false⟩⟩ (fun _ => str "invalid signature") id slash (str "q7v=") (str "1/foo") []
      (by decide) (by decide)⟩

/-- C6 as stated fails: the text `q7\nvM` between the first byte and the first
`'.'` of the path `/q7\nvM.1700000000/foo` has a byte outside the alphabet,
and `q7vM\n` has a length of 1 modulo 4, yet `ExtractSignature` succeeds on
both. -/
theorem C6_newline_accepted :
    dot ∈ str "/q7\nvM.1700000000/foo" ∧
    (str "q7\nvM").all inAlphabet = false ∧
    (ExtractSignature ⟨⟨false⟩⟩ ⟨str "/q7\nvM.1700000000/foo", []⟩).out
      = .ok [0xAB, 0xBB, 0xCC] ∧
    (str "q7vM\n").length % 4 = 1 ∧
    (ExtractSignature ⟨⟨false⟩⟩ ⟨str "/q7vM\n.1700000000/foo", []⟩).out
      = .ok [0xAB, 0xBB, 0xCC] := by
  decide

/-- C7: for every path with a `'/'` whose text `d` before the first `'/'` is
not a signed base-10 integer that fits in 64 bits, `ExtractExpiry` returns as
its error the `*strconv.NumError` of `strconv.ParseInt` itself (function
`ParseInt`, text `d`, cause `ErrSyntax` or `ErrRange`), an error that is
neither `ErrInvalidSignedURL` nor `ErrInvalidSignature`; so for the texts
`abc`, the empty text and `9223372036854775808`. -/
theorem C7_bad_expiry (f : PathFormatter) (d rest q : Str) (hs : slash ∉ d)
    (hbad : decimalInt64 d = none) :
    (∃ cause, (ExtractExpiry f ⟨d ++ slash :: rest, q⟩).out
        = .err (.num { Func := fnParseInt, Num := d, Err := cause }) ∧
      Error.Is (.num { Func := fnParseInt, Num := d, Err := cause }) .ErrInvalidSignedURL = false ∧
      Error.Is (.num { Func := fnParseInt, Num := d, Err := cause }) .ErrInvalidSignature = false) ∧
    (ExtractExpiry f ⟨str "abc/foo", q⟩).out
      = .err (.num { Func := fnParseInt, Num := str "abc", Err := .ErrSyntax }) ∧
    (ExtractExpiry f ⟨str "/foo", q⟩).out
      = .err (.num { Func := fnParseInt, Num := [], Err := .ErrSyntax }) ∧
    (ExtractExpiry f ⟨str "9223372036854775808/x", q⟩).out
      = .err (.num { Func := fnParseInt, Num := str "9223372036854775808", Err := .ErrRange }) := by
  refine ⟨?_, ?_, ?_, ?_⟩
  · obtain ⟨v, cause, hp⟩ := (ParseInt_spec d).2 hbad
    refine ⟨cause, ?_, rfl, rfl⟩
    rw [ExtractExpiry_split f d rest q hs, hp]
  · have hsp : str "abc/foo" = str "abc" ++ slash :: str "foo" := by decide
    have hp : ParseInt (str "abc") = (0, some ⟨fnParseInt, str "abc", .ErrSyntax⟩) := by decide
    rw [hsp, ExtractExpiry_split f _ _ q (by decide), hp]
  · have hsp : str "/foo" = [] ++ slash :: str "foo" := by decide
    have hp : ParseInt [] = (0, some ⟨fnParseInt, [], .ErrSyntax⟩) := by decide
    rw [hsp, ExtractExpiry_split f _ _ q (by decide), hp]
  · have hsp : str "9223372036854775808/x" = str "9223372036854775808" ++ slash :: str "x" := by
      decide
    have hp : ParseInt (str "9223372036854775808")
        = (9223372036854775807, some ⟨fnParseInt, str "9223372036854775808", .ErrRange⟩) := by
      decide
    rw [hsp, ExtractExpiry_split f _ _ q (by decide), hp]

/-- C7 at the path `12x/foo`. -/
theorem C7_bad_expiry_witness :
    slash ∉ str "12x" ∧ decimalInt64 (str "12x") = none ∧
    (∃ cause, (ExtractExpiry ⟨⟨false⟩⟩ ⟨str "12x" ++ slash :: str "foo", []⟩).out
        = .err (.num { Func := fnParseInt, Num := str "12x", Err := cause }) ∧
      Error.Is (.num { Func := fnParseInt, Num := str "12x", Err := cause })
        .ErrInvalidSignedURL = false ∧
      Error.Is (.num { Func := fnParseInt, Num := str "12x", Err := cause })
        .ErrInvalidSignature = false) :=
  ⟨by decide, by decide,
    (C7_bad_expiry ⟨⟨false⟩⟩ (str "12x") (str "foo") [] (by decide) (by decide)).1⟩

/-- C8, where the code departs from it: on the path `.1/foo`, whose first byte
is the `'.'`, `ExtractSignature` neither returns a value nor an error but
panics at `encoded[1:]`. It does so exactly on the paths that start with
`'.'`; `ExtractExpiry` never panics. -/
theorem C8_leading_dot_panics :
    (ExtractSignature ⟨⟨false⟩⟩ ⟨str ".1/foo", []⟩).out = .panic ∧
    (∀ (f : PathFormatter) (u : URL),
      (ExtractSignature f u).out = .panic ↔ u.Path.head? = some dot) ∧
    (∀ (f : PathFormatter) (u : URL), (ExtractExpiry f u).out ≠ .panic) := by
  refine ⟨by decide, ?_, ?_⟩
  · intro f u
    obtain ⟨p, q⟩ := u
    by_cases hd : dot ∈ p
    · rcases path_dot_cases p hd with ⟨rest, rfl⟩ | ⟨c0, e, rest, hn, rfl⟩
      · rw [ExtractSignature_leading_dot]
        simp
      · rw [ExtractSignature_split f c0 e rest q hn]
        have hc0 : c0 ≠ dot := fun h => hn (by simp [h])
        cases DecodeString e <;> simp [hc0]
    · rw [ExtractSignature_no_dot f _ hd]
      constructor
      · intro h; cases h
      · intro h
        exfalso
        cases p with
        | nil => simp at h
        | cons c p' =>
          simp only [List.head?_cons, Option.some.injEq] at h
          exact hd (by simp [h])
  · intro f u
    obtain ⟨p, q⟩ := u
    by_cases hd : slash ∈ p
    · obtain ⟨d, rest, hn, rfl⟩ := exists_first_split p slash hd
      rw [ExtractExpiry_split f d rest q hn]
      rcases ParseInt d with ⟨v, _ | err⟩ <;> simp
    · rw [ExtractExpiry_no_slash f _ hd]
      simp

/-- C9: whenever `ExtractSignature` succeeds, the query afterwards is empty
under `skipQuery = true` and is the query before the call under
`skipQuery = false`; under either setting the call succeeds with the same
signature bytes and leaves the same path. -/
theorem C9_query_stripping (f : PathFormatter) (u : URL) (sig : List Byte)
    (h : (ExtractSignature f u).out = .ok sig) :
    (ExtractSignature f u).url.RawQuery = (if f.signer.skipQuery then [] else u.RawQuery) ∧
    ∀ g : PathFormatter, (ExtractSignature g u).out = .ok sig ∧
      (ExtractSignature g u).url.Path = (ExtractSignature f u).url.Path := by
  obtain ⟨p, q⟩ := u
  by_cases hd : dot ∈ p
  · rcases path_dot_cases p hd with ⟨rest, rfl⟩ | ⟨c0, e, rest, hn, rfl⟩
    · rw [ExtractSignature_leading_dot] at h
      cases h
    · rw [ExtractSignature_split f c0 e rest q hn] at h ⊢
      cases hdec : DecodeString e with
      | none =>
        rw [hdec] at h
        cases h
      | some s =>
        rw [hdec] at h
        refine ⟨rfl, fun g => ?_⟩
        rw [ExtractSignature_split g c0 e rest q hn, hdec]
        exact ⟨h, rfl⟩
  · rw [ExtractSignature_no_dot f _ hd] at h
    cases h

/-- C9 at the query `x=1`: cleared under `skipQuery = true`, kept under
`skipQuery = false`. -/
theorem C9_query_stripping_witness :
    (ExtractSignature ⟨⟨true⟩⟩ ⟨str "/qrvM.1/foo", str "x=1"⟩).out = .ok [0xAA, 0xBB, 0xCC] ∧
    (ExtractSignature ⟨⟨true⟩⟩ ⟨str "/qrvM.1/foo", str "x=1"⟩).url.RawQuery = [] ∧
    (ExtractSignature ⟨⟨false⟩⟩ ⟨str "/qrvM.1/foo", str "x=1"⟩).url.RawQuery = str "x=1" ∧
    (ExtractSignature ⟨⟨false⟩⟩ ⟨str "/qrvM.1/foo", str "x=1"⟩).out = .ok [0xAA, 0xBB, 0xCC] ∧
    (ExtractSignature ⟨⟨false⟩⟩ ⟨str "/qrvM.1/foo", str "x=1"⟩).url.Path
      = (ExtractSignature ⟨⟨true⟩⟩ ⟨str "/qrvM.1/foo", str "x=1"⟩).url.Path :=
  ⟨by decide,
   (C9_query_stripping ⟨⟨true⟩⟩ ⟨str "/qrvM.1/foo", str "x=1"⟩ [0xAA, 0xBB, 0xCC] (by decide)).1,
   (C9_query_stripping ⟨⟨false⟩⟩ ⟨str "/qrvM.1/foo", str "x=1"⟩ [0xAA, 0xBB, 0xCC] (by decide)).1,
   (C9_query_stripping ⟨⟨true⟩⟩ ⟨str "/qrvM.1/foo", str "x=1"⟩ [0xAA, 0xBB, 0xCC] (by decide)).2
     ⟨⟨false⟩⟩⟩

/-- C10: `AddExpiry` sets the path to `D ++ p` with nothing in between, `D`
being `FormatInt` of the `int64` Unix seconds `v` of the expiry. `D` is an
optional `'-'`, present exactly when `v` is negative, followed by a run of
decimal digits that is not empty, denotes the magnitude of `v` and has no
leading zero unless it is `0` alone (which a negative `v` never gives); `D`
never starts with `'+'`, and read back as a signed decimal it denotes `v`.
The value `v` is that of the expiry: it is the count of seconds from the epoch
to the expiry whenever that count is an `int64`, `time.Unix(v, 0)` is the
expiry cut down to whole seconds, and for the expiry `time.Unix(n, 0)` the
text written is `FormatInt n`. -/
theorem C10_AddExpiry (f : PathFormatter) (u : URL) (t : Time) :
    (AddExpiry f u t).Path = FormatInt t.Unix ++ u.Path ∧
    (minInt64 ≤ t.Unix ∧ t.Unix ≤ maxInt64) ∧
    (∃ ds : Str, FormatInt t.Unix = (if t.Unix < 0 then [(45 : Byte)] else []) ++ ds ∧
      ds ≠ [] ∧ ds.all isDigit = true ∧ (ds.head? = some 48 → ds = [48]) ∧
      (t.Unix < 0 → ds.head? ≠ some 48) ∧ decimalValue ds = t.Unix.natAbs) ∧
    ((FormatInt t.Unix).head? = some 45 ↔ t.Unix < 0) ∧
    (FormatInt t.Unix).head? ≠ some 43 ∧
    ((FormatInt t.Unix).head? = some 48 → FormatInt t.Unix = [48]) ∧
    decimalInt64 (FormatInt t.Unix) = some t.Unix ∧
    (minInt64 ≤ t.epochSeconds → t.epochSeconds ≤ maxInt64 → t.Unix = t.epochSeconds) ∧
    (t.valid → timeUnix t.Unix = t.truncSecond) ∧
    (∀ n : Int, minInt64 ≤ n → n ≤ maxInt64 →
      (timeUnix n).Unix = n ∧ (AddExpiry f u (timeUnix n)).Path = FormatInt n ++ u.Path) := by
  obtain ⟨hmin, hmax⟩ := Unix_range t
  obtain ⟨ds, hds, hne, hall, hz, hval⟩ := FormatInt_shape t.Unix hmin hmax
  obtain ⟨d, ds', rfl⟩ : ∃ d ds', ds = d :: ds' := by
    cases ds with
    | nil => exact absurd rfl hne
    | cons d ds' => exact ⟨d, ds', rfl⟩
  have hd : isDigit d = true := by
    simp only [List.all_cons, Bool.and_eq_true] at hall
    exact hall.1
  obtain ⟨h43, h45, _, _⟩ := isDigit_ne d hd
  have hnz : t.Unix < 0 → (d :: ds').head? ≠ some 48 := by
    intro hneg h0
    rw [hz h0] at hval
    simp only [decimalValue, decFold, List.foldl_cons, List.foldl_nil] at hval
    have h48 : ((48 : Byte).val) = 48 := rfl
    omega
  refine ⟨rfl, ⟨hmin, hmax⟩, ⟨d :: ds', hds, hne, hall, hz, hnz, hval⟩, ?_, ?_, ?_,
    decimalInt64_FormatInt t.Unix hmin hmax, Unix_eq_epochSeconds t, timeUnix_Unix t,
    fun n h1 h2 => ⟨Unix_timeUnix n h1 h2, by simp only [AddExpiry, Unix_timeUnix n h1 h2]⟩⟩
  · rw [hds]
    by_cases hneg : t.Unix < 0
    · simp [hneg]
    · simp [hneg, h45]
  · rw [hds]
    by_cases hneg : t.Unix < 0
    · simp only [hneg, if_true, List.singleton_append, List.head?_cons, ne_eq,
        Option.some.injEq]
      decide
    · simp [hneg, h43]
  · rw [hds]
    by_cases hneg : t.Unix < 0
    · simp only [hneg, if_true, List.singleton_append, List.head?_cons, Option.some.injEq]
      intro h
      exact absurd h (by decide)
    · simp only [hneg, if_false, List.nil_append]
      exact hz


/-- C10 at an expiry 100 seconds before the epoch with a sub-second part: the
path written from `/foo/bar` is `-100/foo/bar`. -/
theorem C10_AddExpiry_witness :
    Time.valid { ext := 62135596700, nsec := 5 } ∧
    Time.epochSeconds { ext := 62135596700, nsec := 5 } = -100 ∧
    Time.Unix { ext := 62135596700, nsec := 5 }
      = Time.epochSeconds { ext := 62135596700, nsec := 5 } ∧
    timeUnix (Time.Unix { ext := 62135596700, nsec := 5 })
      = Time.truncSecond { ext := 62135596700, nsec := 5 } ∧
    (AddExpiry ⟨⟨false⟩⟩ ⟨str "/foo/bar", []⟩ { ext := 62135596700, nsec := 5 }).Path
      = FormatInt (Time.Unix { ext := 62135596700, nsec := 5 }) ++ str "/foo/bar" ∧
    FormatInt (Time.Unix { ext := 62135596700, nsec := 5 }) ++ str "/foo/bar"
      = str "-100/foo/bar" :=
  ⟨by decide, by decide,
    (C10_AddExpiry ⟨⟨false⟩⟩ ⟨str "/foo/bar", []⟩ { ext := 62135596700, nsec := 5 }).2.2.2.2.2.2.2.1
      (by decide) (by decide),
    (C10_AddExpiry ⟨⟨false⟩⟩ ⟨str "/foo/bar", []⟩
      { ext := 62135596700, nsec := 5 }).2.2.2.2.2.2.2.2.1 (by decide),
    (C10_AddExpiry ⟨⟨false⟩⟩ ⟨str "/foo/bar", []⟩ { ext := 62135596700, nsec := 5 }).1,
    by decide⟩

/-! ## The text `EncodeToString` writes -/

theorem inAlphabet_encodeChar (v : Nat) (h : v < 64) : inAlphabet (encodeChar v) = true := by
  have key : ∀ w : Fin 64, inAlphabet (encodeChar w.val) = true := by decide
  exact key ⟨v, h⟩

theorem EncodeToString_all_inAlphabet (s : List Byte) :
    (EncodeToString s).all inAlphabet = true := by
  induction s using EncodeToString.induct with
  | case1 a b c rest ih =>
    simp only [EncodeToString, List.all_cons, Bool.and_eq_true]
    exact ⟨inAlphabet_encodeChar _ (Nat.mod_lt _ (by decide)),
      inAlphabet_encodeChar _ (Nat.mod_lt _ (by decide)),
      inAlphabet_encodeChar _ (Nat.mod_lt _ (by decide)),
      inAlphabet_encodeChar _ (Nat.mod_lt _ (by decide)), ih⟩
  | case2 a b =>
    simp only [EncodeToString, List.all_cons, List.all_nil, Bool.and_true, Bool.and_eq_true]
    exact ⟨inAlphabet_encodeChar _ (Nat.mod_lt _ (by decide)),
      inAlphabet_encodeChar _ (Nat.mod_lt _ (by decide)),
      inAlphabet_encodeChar _ (Nat.mod_lt _ (by decide))⟩
  | case3 a =>
    simp only [EncodeToString, List.all_cons, List.all_nil, Bool.and_true, Bool.and_eq_true]
    exact ⟨inAlphabet_encodeChar _ (Nat.mod_lt _ (by decide)),
      inAlphabet_encodeChar _ (Nat.mod_lt _ (by decide))⟩
  | case4 => rfl

theorem EncodeToString_length (s : List Byte) :
    (EncodeToString s).length = (4 * s.length + 2) / 3 := by
  induction s using EncodeToString.induct with
  | case1 a b c rest ih =>
    simp only [EncodeToString, List.length_cons, ih]
    omega
  | case2 a b => simp [EncodeToString]
  | case3 a => simp [EncodeToString]
  | case4 => rfl

theorem EncodeToString_injective (s1 s2 : List Byte)
    (h : EncodeToString s1 = EncodeToString s2) : s1 = s2 := by
  have h1 := DecodeString_EncodeToString s1
  rw [h, DecodeString_EncodeToString s2] at h1
  exact (Option.some.inj h1).symm

/-! ## `DecodeString` on strict texts -/

set_option maxRecDepth 100000 in
theorem decodeMap_of_inAlphabet (c : Byte) (h : inAlphabet c = true) :
    decodeMap c = some (sextetOf c) := by
  revert c
  decide

theorem decodeLoop_strict : ∀ e : Str, e.all inAlphabet = true → e.length % 4 ≠ 1 →
    decodeLoop e [] = some (rawURLBytes e)
  | [], _, _ => rfl
  | [_], _, h => absurd rfl h
  | [a, b], hall, _ => by
    simp only [List.all_cons, List.all_nil, Bool.and_true, Bool.and_eq_true] at hall
    simp [decodeLoop, decodeMap_of_inAlphabet a hall.1, decodeMap_of_inAlphabet b hall.2,
      quantumBytes, rawURLBytes, sextetBytes]
  | [a, b, c], hall, _ => by
    simp only [List.all_cons, List.all_nil, Bool.and_true, Bool.and_eq_true] at hall
    simp [decodeLoop, decodeMap_of_inAlphabet a hall.1, decodeMap_of_inAlphabet b hall.2.1,
      decodeMap_of_inAlphabet c hall.2.2, quantumBytes, rawURLBytes, sextetBytes]
  | a :: b :: c :: d :: rest, hall, hlen => by
    simp only [List.all_cons, Bool.and_eq_true] at hall
    have ih := decodeLoop_strict rest hall.2.2.2.2 (by simp only [List.length_cons] at hlen; omega)
    simp [decodeLoop, decodeMap_of_inAlphabet a hall.1, decodeMap_of_inAlphabet b hall.2.1,
      decodeMap_of_inAlphabet c hall.2.2.1, decodeMap_of_inAlphabet d hall.2.2.2.1, quantumBytes,
      ih, rawURLBytes, sextetBytes]

theorem DecodeString_strict (e : Str) (h : strictRawURL e = true) :
    DecodeString e = some (rawURLBytes e) := by
  simp only [strictRawURL, Bool.and_eq_true, decide_eq_true_eq] at h
  exact decodeLoop_strict e h.1 h.2

theorem rawURLBytes_EncodeToString (s : List Byte) : rawURLBytes (EncodeToString s) = s := by
  have h : strictRawURL (EncodeToString s) = true := by
    have := DecodeString_isSome (EncodeToString s)
    rw [DecodeString_EncodeToString] at this
    simp only [Option.isSome_some, looseRawURL] at this
    have hs : stripNewlines (EncodeToString s) = EncodeToString s := by
      simp only [stripNewlines, List.filter_eq_self]
      intro c hc
      have hall := EncodeToString_all_inAlphabet s
      rw [List.all_eq_true] at hall
      have := hall c hc
      cases hn : isNewline c with
      | false => rfl
      | true => rw [isNewline_not_inAlphabet c hn] at this; cases this
    rw [hs] at this
    exact this.symm
  have h1 := DecodeString_strict _ h
  rw [DecodeString_EncodeToString] at h1
  exact (Option.some.inj h1).symm


/-- C11: for every path `r`, with or without a leading `'/'`, and every byte
sequence `s`, `AddSignature` sets the path to exactly `"/" ++ E ++ "." ++ r`
with `E` the encoding of `s`: `E` has `⌈4n/3⌉` bytes for `n` bytes of `s`,
every byte of `E` is in `A-Z a-z 0-9 - _`, and `E` holds no `'='` and no
`'.'`. `E` is the encoding of `s` and of no other bytes: `DecodeString` gives
`s` back from it, and so does the reading of RFC 4648. -/
theorem C11_AddSignature (f : PathFormatter) (r q : Str) (s : List Byte) :
    (AddSignature f ⟨r, q⟩ s).Path = str "/" ++ EncodeToString s ++ str "." ++ r ∧
    (EncodeToString s).length = (4 * s.length + 2) / 3 ∧
    (3 * (EncodeToString s).length ≥ 4 * s.length ∧
      3 * (EncodeToString s).length < 4 * s.length + 3) ∧
    (∀ c ∈ EncodeToString s, inAlphabet c = true) ∧
    (61 : Byte) ∉ EncodeToString s ∧
    dot ∉ EncodeToString s ∧
    DecodeString (EncodeToString s) = some s ∧
    rawURLBytes (EncodeToString s) = s := by
  have hall := EncodeToString_all_inAlphabet s
  rw [List.all_eq_true] at hall
  have hlen := EncodeToString_length s
  refine ⟨?_, hlen, by omega, hall, ?_, dot_not_mem_EncodeToString s,
    DecodeString_EncodeToString s, rawURLBytes_EncodeToString s⟩
  · have h1 : str "/" = [slash] := by decide
    have h2 : str "." = [dot] := by decide
    simp [AddSignature, h1, h2]
  · intro hm
    exact absurd (hall _ hm) (by decide)

/-- C12, as amended: for every path `c ++ e ++ "." ++ rest` where `c` is one
leading byte other than `'.'`, `e` holds no `'.'` and `e` is unpadded URL-safe
base64 text, `ExtractSignature` succeeds, returns the bytes `e` decodes to and
sets the path to exactly `rest`, the text after the first `'.'`; dots in
`rest` stay where they are. -/
theorem C12_ExtractSignature (f : PathFormatter) (c : Byte) (e rest q : Str)
    (hc : c ≠ dot) (he : dot ∉ e) (hv : strictRawURL e = true) :
    (ExtractSignature f ⟨c :: (e ++ dot :: rest), q⟩).out = .ok (rawURLBytes e) ∧
    (ExtractSignature f ⟨c :: (e ++ dot :: rest), q⟩).url.Path = rest := by
  have hdot : dot ∉ c :: e := by
    intro hm
    rcases List.mem_cons.mp hm with h | h
    · exact hc h.symm
    · exact he h
  rw [ExtractSignature_split f c e rest q hdot, DecodeString_strict e hv]
  exact ⟨rfl, rfl⟩

/-- C12 as amended, at the path `/qrvM.1/foo.bar/baz.txt`, whose rest holds
further dots. -/
theorem C12_ExtractSignature_witness :
    slash ≠ dot ∧ dot ∉ str "qrvM" ∧ strictRawURL (str "qrvM") = true ∧
    rawURLBytes (str "qrvM") = [0xAA, 0xBB, 0xCC] ∧
    (ExtractSignature ⟨⟨false⟩⟩
      ⟨slash :: (str "qrvM" ++ dot :: str "1/foo.bar/baz.txt"), []⟩).out
      = .ok (rawURLBytes (str "qrvM")) ∧
    (ExtractSignature ⟨⟨false⟩⟩
      ⟨slash :: (str "qrvM" ++ dot :: str "1/foo.bar/baz.txt"), []⟩).url.Path
      = str "1/foo.bar/baz.txt" :=
  ⟨by decide, by decide, by decide, by decide,
    C12_ExtractSignature ⟨⟨false⟩⟩ slash (str "qrvM") (str "1/foo.bar/baz.txt") []
      (by decide) (by decide) (by decide)⟩

/-- C12 as stated fails when the leading byte is itself a `'.'`: the path
`.qrvM.1/foo` has the stated form, with `e = qrvM` valid and free of `'.'`,
and `ExtractSignature` panics on it instead of succeeding. -/
theorem C12_leading_dot_fails :
    str ".qrvM.1/foo" = dot :: (str "qrvM" ++ dot :: str "1/foo") ∧
    dot ∉ str "qrvM" ∧ strictRawURL (str "qrvM") = true ∧
    (ExtractSignature ⟨⟨false⟩⟩ ⟨str ".qrvM.1/foo", []⟩).out = .panic ∧
    (ExtractSignature ⟨⟨false⟩⟩ ⟨str ".qrvM.1/foo", []⟩).out ≠ .ok (rawURLBytes (str "qrvM")) := by
  decide

theorem decimalInt64_range (d : Str) (n : Int) (h : decimalInt64 d = some n) :
    minInt64 ≤ n ∧ n ≤ maxInt64 := by
  cases d with
  | nil => simp [decimalInt64] at h
  | cons c rest =>
    simp only [decimalInt64] at h
    generalize (if c = 43 ∨ c = 45 then rest else c :: rest) = ds at h
    generalize (if c = 45 then -(decimalValue ds : Int) else (decimalValue ds : Int)) = i at h
    by_cases h1 : ds.isEmpty = true
    · rw [if_pos h1] at h
      cases h
    · rw [if_neg h1] at h
      by_cases h2 : ds.all isDigit = true
      · rw [if_pos h2] at h
        by_cases hr : minInt64 ≤ i ∧ i ≤ maxInt64
        · rw [if_pos hr] at h
          cases h
          exact hr
        · rw [if_neg hr] at h
          cases h
      · rw [if_neg h2] at h
        cases h

/-- C13, as amended: for every path `d ++ "/" ++ rest` where `d` holds no
`'/'` and is the decimal text of a signed 64-bit integer `n`, `ExtractExpiry`
succeeds, sets the path to exactly `"/" ++ rest` and returns `time.Unix(n, 0)`,
whose `Unix()` is `n` and whose sub-second part is zero. For
`n ≤ maxInt64 - unixToInternal` it is the instant exactly `n` whole seconds
after the epoch; for a larger `n` the seconds of `time.Unix` wrap around and
the time returned lies before the epoch. So `390830893/foo/bar` gives the path
`/foo/bar` and the instant 390830893 seconds after the epoch. -/
theorem C13_ExtractExpiry (f : PathFormatter) (d rest q : Str) (n : Int)
    (hs : slash ∉ d) (hd : decimalInt64 d = some n) :
    (ExtractExpiry f ⟨d ++ slash :: rest, q⟩).out = .ok (timeUnix n) ∧
    (ExtractExpiry f ⟨d ++ slash :: rest, q⟩).url.Path = str "/" ++ rest ∧
    (timeUnix n).Unix = n ∧ (timeUnix n).nsec = 0 ∧
    (n ≤ maxInt64 - unixToInternal →
      (ExtractExpiry f ⟨d ++ slash :: rest, q⟩).out = .ok (secondsAfterEpoch n)) ∧
    (maxInt64 - unixToInternal < n →
      (timeUnix n).ext = unixToInternal + n - 18446744073709551616 ∧
      (timeUnix n).ext < (secondsAfterEpoch 0).ext) ∧
    (ExtractExpiry f ⟨str "390830893/foo/bar", q⟩).out = .ok (secondsAfterEpoch 390830893) ∧
    (ExtractExpiry f ⟨str "390830893/foo/bar", q⟩).url.Path = str "/foo/bar" := by
  obtain ⟨hmin, hmax⟩ := decimalInt64_range d n hd
  have hp := (ParseInt_spec d).1 n hd
  have hsp : str "390830893/foo/bar" = str "390830893" ++ slash :: str "foo/bar" := by decide
  have hp2 : ParseInt (str "390830893") = (390830893, none) := by decide
  rw [ExtractExpiry_split f d rest q hs, hp, hsp,
    ExtractExpiry_split f _ _ q (by decide), hp2]
  refine ⟨rfl, rfl, Unix_timeUnix n hmin hmax, rfl, ?_, ?_, ?_, ?_⟩
  · intro hn
    show Outcome.ok (timeUnix n) = Outcome.ok (secondsAfterEpoch n)
    rw [timeUnix_eq_secondsAfterEpoch n hmin hn]
  · intro hn
    exact timeUnix_wraps n hn hmax
  · show Outcome.ok (timeUnix 390830893) = Outcome.ok (secondsAfterEpoch 390830893)
    rw [timeUnix_eq_secondsAfterEpoch 390830893 (by decide) (by decide)]
  · show slash :: str "foo/bar" = str "/foo/bar"
    decide

/-- C13 as amended, at the path `-100/a/b`, a time before 1970, with a later
`'/'` in the rest. -/
theorem C13_ExtractExpiry_witness :
    slash ∉ str "-100" ∧ decimalInt64 (str "-100") = some (-100) ∧
    (-100 : Int) ≤ maxInt64 - unixToInternal ∧
    (ExtractExpiry ⟨⟨false⟩⟩ ⟨str "-100" ++ slash :: str "a/b", []⟩).out
      = .ok (secondsAfterEpoch (-100)) ∧
    (ExtractExpiry ⟨⟨false⟩⟩ ⟨str "-100" ++ slash :: str "a/b", []⟩).url.Path
      = str "/" ++ str "a/b" ∧
    (timeUnix (-100)).Unix = -100 ∧ (timeUnix (-100)).nsec = 0 :=
  ⟨by decide, by decide, by decide,
    (C13_ExtractExpiry ⟨⟨false⟩⟩ (str "-100") (str "a/b") [] (-100) (by decide)
      (by decide)).2.2.2.2.1 (by decide),
    (C13_ExtractExpiry ⟨⟨false⟩⟩ (str "-100") (str "a/b") [] (-100) (by decide) (by decide)).2.1,
    (C13_ExtractExpiry ⟨⟨false⟩⟩ (str "-100") (str "a/b") [] (-100) (by decide) (by decide)).2.2.1,
    (C13_ExtractExpiry ⟨⟨false⟩⟩ (str "-100") (str "a/b") [] (-100) (by decide)
      (by decide)).2.2.2.1⟩

/-- C13 as stated fails at the greatest `int64`: the path
`9223372036854775807/x` has the stated form, `ExtractExpiry` succeeds on it,
and the time returned is not the instant 9223372036854775807 seconds after the
epoch: its seconds have wrapped around, to a time before the epoch. -/
theorem C13_far_future_wraps :
    slash ∉ str "9223372036854775807" ∧
    decimalInt64 (str "9223372036854775807") = some 9223372036854775807 ∧
    (ExtractExpiry ⟨⟨false⟩⟩ ⟨str "9223372036854775807" ++ slash :: str "x", []⟩).out
      = .ok { ext := -9223371974719179009, nsec := 0 } ∧
    (ExtractExpiry ⟨⟨false⟩⟩ ⟨str "9223372036854775807" ++ slash :: str "x", []⟩).out
      ≠ .ok (secondsAfterEpoch 9223372036854775807) ∧
    (-9223371974719179009 : Int) < (secondsAfterEpoch 0).ext := by
  decide

/-- C14: for every path `r` and every two byte sequences `s1 ≠ s2`, of equal
or different length, one of them possibly empty, `AddSignature` with `s1` and
`AddSignature` with `s2` give different paths. -/
theorem C14_AddSignature_injective (f g : PathFormatter) (r q q' : Str) (s1 s2 : List Byte)
    (h : s1 ≠ s2) :
    (AddSignature f ⟨r, q⟩ s1).Path ≠ (AddSignature g ⟨r, q'⟩ s2).Path := by
  intro heq
  simp only [AddSignature, List.cons.injEq, true_and] at heq
  exact h (EncodeToString_injective s1 s2 (List.append_cancel_right heq))

/-- C14 at the empty signature against the one-byte signature `00`, and at
two signatures of one length. -/
theorem C14_AddSignature_injective_witness :
    (AddSignature ⟨⟨false⟩⟩ ⟨str "1/foo", []⟩ []).Path
      ≠ (AddSignature ⟨⟨false⟩⟩ ⟨str "1/foo", []⟩ [0]).Path ∧
    (AddSignature ⟨⟨false⟩⟩ ⟨str "1/foo", []⟩ [0xAA, 0xBB, 0xCC]).Path
      ≠ (AddSignature ⟨⟨true⟩⟩ ⟨str "1/foo", str "x=1"⟩ [0xAB, 0xBB, 0xCC]).Path :=
  ⟨C14_AddSignature_injective ⟨⟨false⟩⟩ ⟨⟨false⟩⟩ (str "1/foo") [] [] [] [0] (by decide),
   C14_AddSignature_injective ⟨⟨false⟩⟩ ⟨⟨true⟩⟩ (str "1/foo") [] (str "x=1")
     [0xAA, 0xBB, 0xCC] [0xAB, 0xBB, 0xCC] (by decide)⟩

/-- C15: `AddExpiry`, `AddSignature` and `ExtractExpiry` leave the query as it
was, for every URL, expiry and signature, whether `ExtractExpiry` succeeds or
fails. -/
theorem C15_query_untouched (f : PathFormatter) (u : URL) (t : Time) (s : List Byte) :
    (AddExpiry f u t).RawQuery = u.RawQuery ∧
    (AddSignature f u s).RawQuery = u.RawQuery ∧
    (ExtractExpiry f u).url.RawQuery = u.RawQuery := by
  refine ⟨rfl, rfl, ?_⟩
  obtain ⟨p, q⟩ := u
  by_cases hd : slash ∈ p
  · obtain ⟨d, rest, hn, rfl⟩ := exists_first_split p slash hd
    rw [ExtractExpiry_split f d rest q hn]
    rcases ParseInt d with ⟨v, _ | err⟩ <;> rfl
  · rw [ExtractExpiry_no_slash f _ hd]

/-- C16: the path written by `AddExpiry` followed by `AddSignature` depends on
the path `p`, the expiry `t` and the signature `s` alone: two runs from URLs
with the path `p` give the same path, whatever their queries and formatters,
namely `"/" ++ base64url(s) ++ "." ++ FormatInt(t.Unix()) ++ p`. -/
theorem C16_encoding_deterministic (f1 f2 : PathFormatter) (p q1 q2 : Str) (t : Time)
    (s : List Byte) :
    (AddSignature f1 (AddExpiry f1 ⟨p, q1⟩ t) s).Path
      = (AddSignature f2 (AddExpiry f2 ⟨p, q2⟩ t) s).Path ∧
    (AddSignature f1 (AddExpiry f1 ⟨p, q1⟩ t) s).Path
      = slash :: (EncodeToString s ++ dot :: (FormatInt t.Unix ++ p)) :=
  ⟨rfl, rfl⟩

theorem dot_not_mem_FormatInt (i : Int) (hmin : minInt64 ≤ i) (hmax : i ≤ maxInt64) :
    dot ∉ FormatInt i := by
  obtain ⟨ds, hds, _, hall, _, _⟩ := FormatInt_shape i hmin hmax
  rw [hds]
  intro hm
  rw [List.mem_append] at hm
  rcases hm with hm | hm
  · split at hm
    · simp [dot] at hm
    · simp at hm
  · rw [List.all_eq_true] at hall
    exact (isDigit_ne dot (hall dot hm)).2.2.2 rfl

theorem FormatInt_ne_nil (i : Int) (hmin : minInt64 ≤ i) (hmax : i ≤ maxInt64) :
    FormatInt i ≠ [] := by
  obtain ⟨ds, hds, hne, _⟩ := FormatInt_shape i hmin hmax
  rw [hds]
  intro h
  exact hne (List.append_eq_nil.mp h).2

theorem DecodeString_of_slash_mem (e : Str) (h : slash ∈ e) : DecodeString e = none := by
  rw [DecodeString_eq_none_iff]
  have hm : slash ∈ stripNewlines e := by
    simp only [stripNewlines, List.mem_filter]
    exact ⟨h, by decide⟩
  simp only [looseRawURL, strictRawURL, Bool.and_eq_false_iff]
  left
  rw [List.all_eq_false]
  exact ⟨slash, hm, by decide⟩

/-- C17: when `AddSignature` is applied before `AddExpiry`, the path is
`FormatInt(t.Unix()) ++ "/" ++ base64url(s) ++ "." ++ p`, and on it
`ExtractSignature` never returns `(p, s)`: the text `e` between the first byte
and the first `'.'` holds a `'/'`, which is outside the alphabet, and the call
fails with an error that wraps `ErrInvalidSignature`, leaving the URL as it
was. -/
theorem C17_wrong_order (f g : PathFormatter) (p q : Str) (t : Time) (s : List Byte) :
    (AddExpiry f (AddSignature f ⟨p, q⟩ s) t).Path
      = FormatInt t.Unix ++ slash :: (EncodeToString s ++ dot :: p) ∧
    (∃ (c : Byte) (e : Str), c :: e = FormatInt t.Unix ++ slash :: EncodeToString s ∧
      dot ∉ c :: e ∧ slash ∈ e ∧ inAlphabet slash = false ∧
      (ExtractSignature g (AddExpiry f (AddSignature f ⟨p, q⟩ s) t)).out
        = .err (.wrapped .ErrInvalidSignature (str ": invalid base64: " ++ e))) ∧
    (ExtractSignature g (AddExpiry f (AddSignature f ⟨p, q⟩ s) t)).out ≠ .ok s ∧
    (ExtractSignature g (AddExpiry f (AddSignature f ⟨p, q⟩ s) t)).url
      = AddExpiry f (AddSignature f ⟨p, q⟩ s) t := by
  obtain ⟨hmin, hmax⟩ := Unix_range t
  have hne := FormatInt_ne_nil t.Unix hmin hmax
  have hnd := dot_not_mem_FormatInt t.Unix hmin hmax
  obtain ⟨c, d', hcd⟩ : ∃ c d', FormatInt t.Unix = c :: d' := by
    cases hF : FormatInt t.Unix with
    | nil => exact absurd hF hne
    | cons c d' => exact ⟨c, d', rfl⟩
  have hpath : AddExpiry f (AddSignature f ⟨p, q⟩ s) t
      = ⟨c :: ((d' ++ slash :: EncodeToString s) ++ dot :: p), q⟩ := by
    simp [AddExpiry, AddSignature, hcd]
  have hdot : dot ∉ c :: (d' ++ slash :: EncodeToString s) := by
    intro hm
    have : dot ∈ FormatInt t.Unix ++ slash :: EncodeToString s := by
      rw [hcd]; simpa using hm
    rcases List.mem_append.mp this with h | h
    · exact hnd h
    · rcases List.mem_cons.mp h with h | h
      · exact absurd h (by decide)
      · exact dot_not_mem_EncodeToString s h
  have hsl : slash ∈ d' ++ slash :: EncodeToString s := by simp
  have hES := ExtractSignature_split g c (d' ++ slash :: EncodeToString s) p q hdot
  rw [DecodeString_of_slash_mem _ hsl] at hES
  refine ⟨by simp [AddExpiry, AddSignature], ⟨c, d' ++ slash :: EncodeToString s, ?_, hdot, hsl,
    by decide, ?_⟩, ?_, ?_⟩
  · rw [hcd]; simp
  · rw [hpath, hES]
  · rw [hpath, hES]
    intro h
    cases h
  · rw [hpath, hES]

theorem FormatInt_ne_plus_or_padded (i : Int) (hmin : minInt64 ≤ i) (hmax : i ≤ maxInt64) :
    FormatInt i ≠ str "+5" ∧ FormatInt i ≠ str "007" := by
  obtain ⟨ds, hds, hne, hall, hz, _⟩ := FormatInt_shape i hmin hmax
  obtain ⟨d, ds', rfl⟩ : ∃ d ds', ds = d :: ds' := by
    cases ds with
    | nil => exact absurd rfl hne
    | cons d ds' => exact ⟨d, ds', rfl⟩
  have hd : isDigit d = true := by
    simp only [List.all_cons, Bool.and_eq_true] at hall
    exact hall.1
  have h5 : str "+5" = [43, 53] := by decide
  have h7 : str "007" = [48, 48, 55] := by decide
  rw [hds, h5, h7]
  by_cases hneg : i < 0
  · simp only [hneg, if_true, List.singleton_append]
    constructor <;> intro h <;> simp only [List.cons.injEq] at h <;> exact absurd h.1 (by decide)
  · simp only [hneg, if_false, List.nil_append]
    constructor
    · intro h
      simp only [List.cons.injEq] at h
      rw [h.1] at hd
      exact absurd hd (by decide)
    · intro h
      have h0 := hz (by rw [h]; rfl)
      rw [h] at h0
      exact absurd h0 (by decide)

/-- C18: for a path `d ++ "/" ++ rest` with no `'/'` in `d`, `ExtractExpiry`
succeeds exactly when `d` is an optional single `'+'` or `'-'` followed by one
or more decimal digits whose value is an `int64`. So `+5/x` and `007/x` are
accepted and give what `5/x` and `7/x` give, `-9223372036854775808/x` is
accepted, and `9223372036854775808/x`, `/x` (empty text) and the lone sign
`'-'` before `/x` are rejected.
`FormatInt` never writes `+5` or `007`, and `AddExpiry` of the expiry decoded
from `+5/x` onto the decoded path `/x` gives `5/x`, not `+5/x`. -/
theorem C18_ExtractExpiry_accepts (f : PathFormatter) (d rest q : Str) (hs : slash ∉ d) :
    ((∃ t, (ExtractExpiry f ⟨d ++ slash :: rest, q⟩).out = .ok t)
      ↔ (decimalInt64 d).isSome = true) ∧
    (ExtractExpiry ⟨⟨false⟩⟩ ⟨str "+5/x", []⟩ = ExtractExpiry ⟨⟨false⟩⟩ ⟨str "5/x", []⟩ ∧
      (ExtractExpiry ⟨⟨false⟩⟩ ⟨str "+5/x", []⟩).out = .ok (timeUnix 5)) ∧
    (ExtractExpiry ⟨⟨false⟩⟩ ⟨str "007/x", []⟩ = ExtractExpiry ⟨⟨false⟩⟩ ⟨str "7/x", []⟩ ∧
      (ExtractExpiry ⟨⟨false⟩⟩ ⟨str "007/x", []⟩).out = .ok (timeUnix 7)) ∧
    (ExtractExpiry ⟨⟨false⟩⟩ ⟨str "-9223372036854775808/x", []⟩).out
      = .ok (timeUnix (-9223372036854775808)) ∧
    (ExtractExpiry ⟨⟨false⟩⟩ ⟨str "9223372036854775808/x", []⟩).out
      = .err (.num (rangeError fnParseInt (str "9223372036854775808"))) ∧
    (ExtractExpiry ⟨⟨false⟩⟩ ⟨str "/x", []⟩).out = .err (.num (syntaxError fnParseInt [])) ∧
    (ExtractExpiry ⟨⟨false⟩⟩ ⟨str "-/x", []⟩).out
      = .err (.num (syntaxError fnParseInt (str "-"))) ∧
    (∀ t : Time, FormatInt t.Unix ≠ str "+5" ∧ FormatInt t.Unix ≠ str "007") ∧
    (AddExpiry ⟨⟨false⟩⟩ (ExtractExpiry ⟨⟨false⟩⟩ ⟨str "+5/x", []⟩).url (timeUnix 5)).Path
      = str "5/x" ∧
    str "5/x" ≠ str "+5/x" := by
  refine ⟨?_, by decide, by decide, by decide, by decide, by decide, by decide, ?_, by decide,
    by decide⟩
  · rw [ExtractExpiry_split f d rest q hs]
    cases hd : decimalInt64 d with
    | none =>
      obtain ⟨v, cause, hp⟩ := (ParseInt_spec d).2 hd
      rw [hp]
      simp
    | some n =>
      rw [(ParseInt_spec d).1 n hd]
      simp
  · intro t
    obtain ⟨hmin, hmax⟩ := Unix_range t
    exact FormatInt_ne_plus_or_padded t.Unix hmin hmax

/-- C18 at the text `+5`. -/
theorem C18_ExtractExpiry_accepts_witness :
    slash ∉ str "+5" ∧
    ((∃ t, (ExtractExpiry ⟨⟨false⟩⟩ ⟨str "+5" ++ slash :: str "x", []⟩).out = .ok t)
      ↔ (decimalInt64 (str "+5")).isSome = true) ∧
    (decimalInt64 (str "+5")).isSome = true :=
  ⟨by decide, (C18_ExtractExpiry_accepts ⟨⟨false⟩⟩ (str "+5") (str "x") [] (by decide)).1,
    by decide⟩

/-- C19: for two paths that hold a `'.'` and differ in their first byte only,
neither first byte being `'.'`, `ExtractSignature` ends the same way: the same
error, or the same signature bytes with the same URL left behind; `XcXc.1/foo`
is decoded exactly like `/cXc.1/foo`. -/
theorem C19_first_byte_unread (f : PathFormatter) (c1 c2 : Byte) (tail q : Str)
    (h1 : c1 ≠ dot) (h2 : c2 ≠ dot) (hd : dot ∈ tail) :
    (ExtractSignature f ⟨c1 :: tail, q⟩).out = (ExtractSignature f ⟨c2 :: tail, q⟩).out ∧
    ((∃ sig, (ExtractSignature f ⟨c1 :: tail, q⟩).out = .ok sig) →
      (ExtractSignature f ⟨c1 :: tail, q⟩).url = (ExtractSignature f ⟨c2 :: tail, q⟩).url) ∧
    ExtractSignature ⟨⟨false⟩⟩ ⟨str "XcXc.1/foo", []⟩
      = ExtractSignature ⟨⟨false⟩⟩ ⟨str "/cXc.1/foo", []⟩ ∧
    (ExtractSignature ⟨⟨false⟩⟩ ⟨str "XcXc.1/foo", []⟩).out = .ok [0x71, 0x77] := by
  obtain ⟨e, rest, he, rfl⟩ := exists_first_split tail dot hd
  have hn1 : dot ∉ c1 :: e := by
    intro hm
    rcases List.mem_cons.mp hm with h | h
    · exact h1 h.symm
    · exact he h
  have hn2 : dot ∉ c2 :: e := by
    intro hm
    rcases List.mem_cons.mp hm with h | h
    · exact h2 h.symm
    · exact he h
  rw [ExtractSignature_split f c1 e rest q hn1, ExtractSignature_split f c2 e rest q hn2]
  refine ⟨?_, ?_, by decide, by decide⟩
  · cases DecodeString e <;> rfl
  · cases DecodeString e with
    | none =>
      intro ⟨sig, h⟩
      cases h
    | some s => intro _; rfl

/-- C19 at the paths `XcXc.1/foo` and `/cXc.1/foo`. -/
theorem C19_first_byte_unread_witness :
    (88 : Byte) ≠ dot ∧ slash ≠ dot ∧ dot ∈ str "cXc.1/foo" ∧
    (ExtractSignature ⟨⟨true⟩⟩ ⟨88 :: str "cXc.1/foo", str "x=1"⟩).out
      = (ExtractSignature ⟨⟨true⟩⟩ ⟨slash :: str "cXc.1/foo", str "x=1"⟩).out :=
  ⟨by decide, by decide, by decide,
    (C19_first_byte_unread ⟨⟨true⟩⟩ 88 slash (str "cXc.1/foo") (str "x=1")
      (by decide) (by decide) (by decide)).1⟩

/-- C20, as amended: whenever `ExtractSignature` returns an error, the URL is
exactly what it was before the call, path and query, under either `skipQuery`
setting. Whenever `ExtractExpiry` returns an error for a path
`d ++ "/" ++ rest` with no `'/'` in `d`, the error is the one of the integer
parse and the path has been overwritten with `"/" ++ rest`, which differs from
the path before whenever `d` is not empty. Its `ErrInvalidSignedURL` failure
leaves the URL unchanged, and a failure of `ExtractExpiry` that leaves the
path as it was is either that one or a parse failure on an empty `d`, the
path then starting with `'/'`. -/
theorem C20_state_after_failure (f : PathFormatter) :
    (∀ (u : URL) (e : Error), (ExtractSignature f u).out = .err e →
      (ExtractSignature f u).url = u) ∧
    (∀ (d rest q : Str) (e : Error), slash ∉ d →
      (ExtractExpiry f ⟨d ++ slash :: rest, q⟩).out = .err e →
      (∃ ne, e = .num ne) ∧
      (ExtractExpiry f ⟨d ++ slash :: rest, q⟩).url.Path = slash :: rest ∧
      (d ≠ [] → (ExtractExpiry f ⟨d ++ slash :: rest, q⟩).url.Path ≠ d ++ slash :: rest)) ∧
    (∀ u : URL, slash ∉ u.Path →
      (ExtractExpiry f u).out = .err (.sentinel .ErrInvalidSignedURL) ∧
      (ExtractExpiry f u).url = u) ∧
    (∀ (u : URL) (e : Error), (ExtractExpiry f u).out = .err e →
      (ExtractExpiry f u).url.Path = u.Path →
      e = .sentinel .ErrInvalidSignedURL ∨ u.Path.head? = some slash) := by
  have hlen : ∀ d rest : Str, d ≠ [] → slash :: rest ≠ d ++ slash :: rest := by
    intro d rest hd h
    have := congrArg List.length h
    simp only [List.length_cons, List.length_append] at this
    have : d.length = 0 := by omega
    exact hd (List.length_eq_zero.mp this)
  refine ⟨?_, ?_, ?_, ?_⟩
  · intro u e he
    obtain ⟨p, q⟩ := u
    by_cases hd : dot ∈ p
    · rcases path_dot_cases p hd with ⟨rest, rfl⟩ | ⟨c0, enc, rest, hn, rfl⟩
      · rw [ExtractSignature_leading_dot]
      · rw [ExtractSignature_split f c0 enc rest q hn] at he ⊢
        cases hdec : DecodeString enc with
        | none => rfl
        | some sig =>
          rw [hdec] at he
          cases he
    · rw [ExtractSignature_no_dot f _ hd]
  · intro d rest q e hs he
    rw [ExtractExpiry_split f d rest q hs] at he ⊢
    rcases hpi : ParseInt d with ⟨v, _ | err⟩
    · rw [hpi] at he
      cases he
    · rw [hpi] at he
      simp only [Outcome.err.injEq] at he
      exact ⟨⟨err, he.symm⟩, rfl, hlen d rest⟩
  · intro u hs
    rw [ExtractExpiry_no_slash f u hs]
    exact ⟨rfl, rfl⟩
  · intro u e he hpath
    obtain ⟨p, q⟩ := u
    by_cases hd : slash ∈ p
    · right
      obtain ⟨d, rest, hn, rfl⟩ := exists_first_split p slash hd
      rw [ExtractExpiry_split f d rest q hn] at hpath
      have hp : slash :: rest = d ++ slash :: rest := by
        rcases hpi : ParseInt d with ⟨v, _ | err⟩ <;> rw [hpi] at hpath <;> exact hpath
      have hnil : d = [] := by
        by_contra hne
        exact hlen d rest hne hp
      rw [hnil]
      rfl
    · left
      rw [ExtractExpiry_no_slash f _ hd] at he
      simp only [Outcome.err.injEq] at he
      exact he.symm

/-- C20 at the formatter with `skipQuery = true`: `ExtractSignature` on
`/a!.1/foo` and `ExtractExpiry` on `abc/foo`. -/
theorem C20_state_after_failure_witness :
    (ExtractSignature ⟨⟨true⟩⟩ ⟨str "/a!.1/foo", str "x=1"⟩).url
      = ⟨str "/a!.1/foo", str "x=1"⟩ ∧
    (ExtractExpiry ⟨⟨true⟩⟩ ⟨str "abc" ++ slash :: str "foo", str "x=1"⟩).url.Path
      = slash :: str "foo" :=
  ⟨(C20_state_after_failure ⟨⟨true⟩⟩).1 ⟨str "/a!.1/foo", str "x=1"⟩
      (.wrapped .ErrInvalidSignature (str ": invalid base64: a!")) (by decide),
   ((C20_state_after_failure ⟨⟨true⟩⟩).2.1 (str "abc") (str "foo") (str "x=1")
      (.num (syntaxError fnParseInt (str "abc"))) (by decide) (by decide)).2.1⟩

/-- C20 as stated fails on the path `/x`, whose expiry text is empty:
`ExtractExpiry` fails there on the integer parse, not with
`ErrInvalidSignedURL`, and the path afterwards is the path before. -/
theorem C20_empty_expiry_keeps_path :
    str "/x" = [] ++ slash :: str "x" ∧
    (ExtractExpiry ⟨⟨false⟩⟩ ⟨str "/x", []⟩).out = .err (.num (syntaxError fnParseInt [])) ∧
    (ExtractExpiry ⟨⟨false⟩⟩ ⟨str "/x", []⟩).out ≠ .err (.sentinel .ErrInvalidSignedURL) ∧
    (ExtractExpiry ⟨⟨false⟩⟩ ⟨str "/x", []⟩).url.Path = str "/x" := by
  decide

end Surl
